import Mathlib

/-!
Verification development for the audio batch-conversion script
(speed_up_audio.py).  The script is shallowly embedded here:

* a filesystem path is its tuple of components (pathlib `Path.parts`),
  modelled as `List String`;
* Python's dict of per-folder speeds is an association list;
* `subprocess.run` is an abstract oracle `exec : List String → Nat`
  mapping a command vector to its exit status (0 = success); a successful
  transcode creates its output file, a failed one creates nothing;
* Python floats carry no arithmetic in this program (they are stored,
  compared for dictionary lookup only via path keys, and rendered into the
  `atempo=` filter string), so speeds are modelled as exact `Rat` values and
  the external float-to-string rendering is a parameter `fmt : Rat → String`;
* `input()` is a stream `ans : Nat → String` of answer lines and Python's
  `float(...)` parser is a parameter `parse : String → Option Rat`
  (`none` models the ValueError abort);
* `os.path.getctime` composed with `fromtimestamp` is a parameter
  `ctime : FsPath → Date`, and `strftime "%Y-%m-%d"` is modelled by
  fixed-width zero-padded decimal rendering (`get_creation_date`).
-/

namespace SpeedUpAudio

/-- A filesystem path: the tuple of its components, as in pathlib
`Path.parts` (e.g. `Path("in/x/a.mp3").parts = ("in", "x", "a.mp3")`,
an absolute path starts with the component `"/"`). -/
abbrev FsPath := List String

/-- Python tuple `<` on path-part tuples: find the first index where the
elements differ and compare those elements; a strict prefix is smaller.
This is the comparison used by the loop guard
`while current_folder.parts >= input_path.parts` (line 77). -/
def tupleLt : List String → List String → Bool
  | [], [] => false
  | [], _ :: _ => true
  | _ :: _, [] => false
  | a :: as, b :: bs => if a = b then tupleLt as bs else decide (a < b)

/-- Python tuple `>=`: the negation of `<` (strings are totally ordered). -/
def tupleGe (a b : List String) : Bool := ! tupleLt a b

/-- pathlib `.parent`: drop the last component; the filesystem root is its
own parent. -/
def pyParent (p : FsPath) : FsPath := if p = ["/"] then p else p.dropLast

/-- Python `k in d` for a dict keyed by paths. -/
def dictContains {α : Type} (m : List (FsPath × α)) (k : FsPath) : Bool :=
  m.any (fun kv => kv.1 == k)

/-- Python `d[k]` as an `Option`. -/
def dictFind {α : Type} (m : List (FsPath × α)) (k : FsPath) : Option α :=
  (m.find? (fun kv => kv.1 == k)).map Prod.snd

/-- Python `d.get(k, dflt)` (line 97: `subfolder_speeds.get(folder, 2.0)`). -/
def dictGetD {α : Type} (m : List (FsPath × α)) (k : FsPath) (dflt : α) : α :=
  (dictFind m k).getD dflt

/-- The ancestor-walk loop of `process_audio_files` (source lines 75-84),
indexed by fuel.  `none` means the fuel ran out before the `while` loop
finished; `some r` means the loop finished and left `closest_parent = r`
(`r = none` when no ancestor with a configured speed was found). -/
def find_closest_aux (speeds : List (FsPath × Rat)) (inputP : FsPath) :
    Nat → FsPath → Option (Option FsPath)
  | 0, _ => none
  | fuel + 1, current =>
    if tupleGe current inputP then
      if dictContains speeds current then some (some current)
      else if current = inputP then some none
      else find_closest_aux speeds inputP fuel (pyParent current)
    else some none

/-- `closest_parent` for one file (source lines 71-88), including the
fallback `if closest_parent is None: closest_parent = input_path`.
The fuel `file.length` bounds the number of ancestors of the file. -/
def closest_parent (speeds : List (FsPath × Rat)) (inputP file : FsPath) : FsPath :=
  match find_closest_aux speeds inputP file.length (pyParent file) with
  | some (some p) => p
  | _ => inputP

/-- The chain of folders the loop visits when started at `inputP ++ r`:
`inputP ++ r`, then `inputP ++ r.dropLast`, ..., down to `inputP`. -/
def walkChain (inputP : FsPath) (r : List String) : List FsPath :=
  ((List.range (r.length + 1)).reverse).map (fun k => inputP ++ r.take k)

/-- Spec-side definition, from the specification's words: the ancestor
directories of the file `inputP ++ rel`, "starting from the file's own
parent, up to the input root". -/
def ancestorChain (inputP : FsPath) (rel : List String) : List FsPath :=
  ((List.range rel.length).reverse).map (fun k => inputP ++ rel.take k)

/-- Spec-side definition: the group of a file is "the closest ancestor
directory ... that is a key of the speed map", defaulting to the input
root when no ancestor is a key. -/
def spec_group (speeds : List (FsPath × Rat)) (inputP : FsPath)
    (rel : List String) : FsPath :=
  ((ancestorChain inputP rel).find? (fun p => dictContains speeds p)).getD inputP

/-- Spec-side definition: the speed of a file is "that group's speed value,
defaulting to 2.0 if no ancestor (including the root) has an assigned
speed". -/
def spec_speed (speeds : List (FsPath × Rat)) (inputP : FsPath)
    (rel : List String) : Rat :=
  match (ancestorChain inputP rel).find? (fun p => dictContains speeds p) with
  | some p => dictGetD speeds p 2
  | none => 2

/-- A calendar date, the result of `datetime.fromtimestamp(getctime(...))`. -/
structure Date where
  year : Nat
  month : Nat
  day : Nat
deriving DecidableEq

/-- Decimal digit character of `n % 10`. -/
def digitChar (n : Nat) : Char := Char.ofNat (48 + n % 10)

/-- Two-digit zero-padded decimal rendering (strftime `%m`, `%d`). -/
def pad2 (n : Nat) : String := String.mk [digitChar (n / 10), digitChar n]

/-- Four-digit zero-padded decimal rendering (strftime `%Y`). -/
def pad4 (n : Nat) : String :=
  String.mk [digitChar (n / 1000), digitChar (n / 100), digitChar (n / 10), digitChar n]

/-- `get_creation_date` (source lines 8-12): the creation date rendered by
`strftime("%Y-%m-%d")`. -/
def get_creation_date (d : Date) : String :=
  pad4 d.year ++ "-" ++ pad2 d.month ++ "-" ++ pad2 d.day

/-- Numeric value of a decimal digit character. -/
def digitVal (c : Char) : Nat := c.toNat - 48

/-- Whether a character is a decimal digit. -/
def isDigitChar (c : Char) : Bool := decide (48 ≤ c.toNat) && decide (c.toNat ≤ 57)

/-- Spec-side definition: interpretation of ten characters shaped
`dddd-dd-dd` as a year, month and day. -/
def parse_iso_fields (y1 y2 y3 y4 s1 m1 m2 s2 d1 d2 : Char) :
    Option (Nat × Nat × Nat) :=
  if s1 = '-' ∧ s2 = '-' ∧ (isDigitChar y1 && isDigitChar y2 && isDigitChar y3 &&
      isDigitChar y4 && isDigitChar m1 && isDigitChar m2 &&
      isDigitChar d1 && isDigitChar d2) = true then
    some (1000 * digitVal y1 + 100 * digitVal y2 + 10 * digitVal y3 + digitVal y4,
          10 * digitVal m1 + digitVal m2, 10 * digitVal d1 + digitVal d2)
  else none

/-- Spec-side definition: parse a `YYYY-MM-DD` string back into its year,
month and day.  Succeeds exactly on ten-character strings shaped
`dddd-dd-dd` with decimal digits `d`. -/
def parse_iso (s : String) : Option (Nat × Nat × Nat) :=
  match s.toList with
  | [y1, y2, y3, y4, s1, m1, m2, s2, d1, d2] =>
    parse_iso_fields y1 y2 y3 y4 s1 m1 m2 s2 d1 d2
  | _ => none

/-- pathlib `.suffix` of a file name: the final `"." + extension` when the
last dot is neither the first nor the last character, `""` otherwise. -/
def pySuffix (name : String) : String :=
  let cs := name.toList
  let k := (cs.reverse.takeWhile (fun c => c != '.')).length
  if k < cs.length then
    let pos := cs.length - 1 - k
    if 0 < pos ∧ pos < cs.length - 1 then String.mk (cs.drop pos) else ""
  else ""

/-- Python `str.lower()` (ASCII case folding, as relevant to extensions). -/
def pyLower (s : String) : String := String.mk (s.toList.map Char.toLower)

/-- Whether the string `s` ends with `post` (Python `str.endswith` /
glob suffix matching). -/
def strEndsWith (s post : String) : Bool := post.toList.isSuffixOf s.toList

/-- Whether the string `s` starts with `pre0`. -/
def strStartsWith (s pre0 : String) : Bool := pre0.toList.isPrefixOf s.toList

/-- pathlib `.relative_to` (line 102): strip the base path, `none` when the
path is not below the base (pathlib raises ValueError there). -/
def relative_to (p base : FsPath) : Option FsPath :=
  if base.isPrefixOf p then some (p.drop base.length) else none

/-- Python `str(path)` as used in the ffmpeg argument vectors.  Only the
identity of the rendered path matters to the claims, so components are
joined with `/`. -/
def pathStr (p : FsPath) : String := String.intercalate "/" p

/-- The destination path of one file (source lines 100-112): the output
root, the file's relative subdirectory, and the date-prefixed filename.
(For files discovered under the input root `relative_to` always succeeds;
the `getD` default is never exercised there.) -/
def output_file_for (inputP outputP : FsPath) (ctime : FsPath → Date)
    (file : FsPath) : FsPath :=
  let rel := (relative_to file inputP).getD file
  outputP ++ rel.dropLast ++
    [get_creation_date (ctime file) ++ "-" ++ file.getLastD ""]

/-- Tier-1 ffmpeg command (source lines 123-143). -/
def tier1_cmd (isMp3 : Bool) (f s o : String) : List String :=
  if isMp3 then
    ["ffmpeg", "-i", f, "-map", "0:a", "-filter:a", "atempo=" ++ s,
     "-c:a", "libmp3lame", "-q:a", "2", "-map_metadata", "0",
     "-id3v2_version", "3", o]
  else
    ["ffmpeg", "-i", f, "-map", "0:a", "-filter:a", "atempo=" ++ s,
     "-c:a", "aac", "-b:a", "192k", "-map_metadata", "0", o]

/-- Tier-2 ffmpeg command `alt_cmd` (source lines 157-166), including the
source's conditional-expression construction
`"-q:a", "2" if mp3 else "-b:a", "192k" if not mp3 else None`
followed by the removal of `None` entries. -/
def alt_cmd (isMp3 : Bool) (f s o : String) : List String :=
  ([some "ffmpeg", some "-i", some f, some "-vn",
    some "-filter:a", some ("atempo=" ++ s),
    some "-c:a", some (if isMp3 then "libmp3lame" else "aac"),
    some "-q:a", some (if isMp3 then "2" else "-b:a"),
    if isMp3 then none else some "192k",
    some o] : List (Option String)).filterMap id

/-- Tier-3 ffmpeg command `min_cmd` (source lines 178-183). -/
def min_cmd (f s o : String) : List String :=
  ["ffmpeg", "-i", f, "-vn", "-filter:a", "atempo=" ++ s, o]

/-- Number of option flags in a command vector (tokens starting with `-`). -/
def flagCount (cmd : List String) : Nat :=
  (cmd.filter (fun t => strStartsWith t "-")).length

/-- Per-file processing outcome (skip / success at some tier / all tiers
exhausted). -/
inductive Outcome where
  | skipped : Outcome
  | success : Nat → Outcome
  | failed : Outcome
deriving DecidableEq

/-- Processing of a single file (source lines 100-189): skip when the
destination exists, otherwise run the three-tier fallback ladder.
Returns the outcome, the updated set of existing output files, and the
external invocations performed, in order. -/
def process_file (exec : List String → Nat) (speedStr : String)
    (inputP outputP : FsPath) (ctime : FsPath → Date)
    (existing : List FsPath) (file : FsPath) :
    Outcome × List FsPath × List (List String) :=
  let output_file := output_file_for inputP outputP ctime file
  if existing.contains output_file then (.skipped, existing, [])
  else
    let fstr := pathStr file
    let ostr := pathStr output_file
    let isMp3 := pyLower (pySuffix (file.getLastD "")) == ".mp3"
    let cmd := tier1_cmd isMp3 fstr speedStr ostr
    if exec cmd == 0 then (.success 1, existing ++ [output_file], [cmd])
    else
      let alt := alt_cmd isMp3 fstr speedStr ostr
      if exec alt == 0 then (.success 2, existing ++ [output_file], [cmd, alt])
      else
        let mn := min_cmd fstr speedStr ostr
        if exec mn == 0 then (.success 3, existing ++ [output_file], [cmd, alt, mn])
        else (.failed, existing, [cmd, alt, mn])

/-- Python `files_by_folder[k].append(v)` with on-demand key creation
(source lines 90-93); dict iteration order is insertion order. -/
def dict_append (d : List (FsPath × List FsPath)) (k : FsPath) (v : FsPath) :
    List (FsPath × List FsPath) :=
  if d.any (fun kv => kv.1 == k) then
    d.map (fun kv => if kv.1 == k then (kv.1, kv.2 ++ [v]) else kv)
  else d ++ [(k, [v])]

/-- Grouping of the discovered files by closest configured ancestor
(source lines 69-93). -/
def files_by_folder (speeds : List (FsPath × Rat)) (inputP : FsPath)
    (files : List FsPath) : List (FsPath × List FsPath) :=
  files.foldl (fun d f => dict_append d (closest_parent speeds inputP f) f) []

/-- Processing of one folder's files in order (source lines 100-189),
threading the set of existing outputs and accumulating the records. -/
def process_folder (exec : List String → Nat) (fmt : Rat → String)
    (inputP outputP : FsPath) (ctime : FsPath → Date) (speed : Rat)
    (files : List FsPath)
    (acc : List (FsPath × Outcome) × List FsPath × List (List String)) :
    List (FsPath × Outcome) × List FsPath × List (List String) :=
  files.foldl (fun a f =>
    let r := process_file exec (fmt speed) inputP outputP ctime a.2.1 f
    (a.1 ++ [(f, r.1)], r.2.1, a.2.2 ++ r.2.2)) acc

/-- The processing phase (source lines 96-189): iterate the groups in
insertion order, resolving each group's speed with
`subfolder_speeds.get(folder, 2.0)`. -/
def process_groups (exec : List String → Nat) (fmt : Rat → String)
    (inputP outputP : FsPath) (ctime : FsPath → Date)
    (speeds : List (FsPath × Rat)) (files : List FsPath)
    (existing0 : List FsPath) :
    List (FsPath × Outcome) × List FsPath × List (List String) :=
  (files_by_folder speeds inputP files).foldl
    (fun a kv =>
      process_folder exec fmt inputP outputP ctime (dictGetD speeds kv.1 2) kv.2 a)
    ([], existing0, [])

/-- `input_path.glob("**/" + "*" + ext)` over an abstract list of the
files present on disk: the files strictly below the input root whose last
component ends with `ext`, case-sensitively (POSIX glob). -/
def glob_ext (allFiles : List FsPath) (inputP : FsPath) (ext : String) :
    List FsPath :=
  allFiles.filter (fun f =>
    inputP.isPrefixOf f && decide (inputP.length < f.length) &&
      strEndsWith (f.getLastD "") ext)

/-- File discovery (source line 66): all `.mp3` matches followed by all
`.m4a` matches. -/
def audio_files (allFiles : List FsPath) (inputP : FsPath) : List FsPath :=
  glob_ext allFiles inputP ".mp3" ++ glob_ext allFiles inputP ".m4a"

/-- The per-subfolder prompt loop of `get_subfolder_speeds` (source lines
35-37): one `input()` line per subfolder, starting at answer index `i`;
the first non-numeric answer raises (returns `Except.error`). -/
def ask_speeds (parse : String → Option Rat) (ans : Nat → String)
    (inputP : FsPath) : List String → Nat → Except Unit (List (FsPath × Rat))
  | [], _ => .ok []
  | name :: rest, i =>
    match parse (ans i) with
    | none => .error ()
    | some v =>
      match ask_speeds parse ans inputP rest (i + 1) with
      | .error e => .error e
      | .ok m => .ok ((inputP ++ [name], v) :: m)

/-- `get_subfolder_speeds` (source lines 14-39): with no subfolders, one
prompt for the main folder; otherwise one prompt for the main folder and
one per immediate subfolder, in order.  A non-numeric answer aborts. -/
def get_subfolder_speeds (parse : String → Option Rat) (ans : Nat → String)
    (inputP : FsPath) (subNames : List String) :
    Except Unit (List (FsPath × Rat)) :=
  match subNames with
  | [] =>
    match parse (ans 0) with
    | none => .error ()
    | some v => .ok [(inputP, v)]
  | _ :: _ =>
    match parse (ans 0) with
    | none => .error ()
    | some v0 =>
      match ask_speeds parse ans inputP subNames 1 with
      | .error e => .error e
      | .ok m => .ok ((inputP, v0) :: m)

/-- `process_audio_files` (source lines 53-189): collect the speeds (a
parse failure aborts before any file is considered), discover the audio
files, then run the grouped processing phase. -/
def process_audio_files (parse : String → Option Rat) (fmt : Rat → String)
    (exec : List String → Nat) (ctime : FsPath → Date)
    (allFiles : List FsPath) (subNames : List String) (ans : Nat → String)
    (inputP outputP : FsPath) (existing0 : List FsPath) :
    Except Unit (List (FsPath × Outcome) × List FsPath × List (List String)) :=
  match get_subfolder_speeds parse ans inputP subNames with
  | .error e => .error e
  | .ok speeds =>
    .ok (process_groups exec fmt inputP outputP ctime speeds
          (audio_files allFiles inputP) existing0)

/-- Continuation byte check: `0x80..0xBF`. -/
def utf8_cont (c : Nat) : Bool := 128 ≤ c && c ≤ 191

/-- Range check for the second byte of a three-byte sequence (tightened
for lead `0xE0` to exclude overlong forms and for `0xED` to exclude
surrogate code points). -/
def utf8_sec3 (b c1 : Nat) : Bool :=
  if b = 224 then 160 ≤ c1 && c1 ≤ 191
  else if b = 237 then 128 ≤ c1 && c1 ≤ 159
  else 128 ≤ c1 && c1 ≤ 191

/-- Range check for the second byte of a four-byte sequence (tightened for
lead `0xF0` against overlong forms and for `0xF4` to cap at `U+10FFFF`). -/
def utf8_sec4 (b c1 : Nat) : Bool :=
  if b = 240 then 144 ≤ c1 && c1 ≤ 191
  else if b = 244 then 128 ≤ c1 && c1 ≤ 143
  else 128 ≤ c1 && c1 ≤ 191

/-- Scalar value encoded by a two-byte sequence. -/
def utf8_cp2 (b c1 : Nat) : Nat := (b - 192) * 64 + (c1 - 128)

/-- Scalar value encoded by a three-byte sequence. -/
def utf8_cp3 (b c1 c2 : Nat) : Nat :=
  (b - 224) * 4096 + (c1 - 128) * 64 + (c2 - 128)

/-- Scalar value encoded by a four-byte sequence. -/
def utf8_cp4 (b c1 c2 c3 : Nat) : Nat :=
  (b - 240) * 262144 + (c1 - 128) * 4096 + (c2 - 128) * 64 + (c3 - 128)

/-- Decoding of one UTF-8 scalar from the front of a byte sequence, as
performed by Python `bytes.decode("utf-8")`: continuation bytes are
`0x80..0xBF`; overlong encodings, surrogate code points and values above
`0x10FFFF` are rejected.  Returns the scalar and the remaining bytes. -/
def utf8_step : List Nat → Option (Nat × List Nat)
  | [] => none
  | b :: rest =>
    if b < 128 then some (b, rest)
    else if 194 ≤ b && b ≤ 223 then
      match rest with
      | c1 :: rest1 => if utf8_cont c1 then some (utf8_cp2 b c1, rest1) else none
      | [] => none
    else if 224 ≤ b && b ≤ 239 then
      match rest with
      | c1 :: c2 :: rest2 =>
        if utf8_sec3 b c1 && utf8_cont c2 then some (utf8_cp3 b c1 c2, rest2)
        else none
      | _ => none
    else if 240 ≤ b && b ≤ 244 then
      match rest with
      | c1 :: c2 :: c3 :: rest3 =>
        if utf8_sec4 b c1 && utf8_cont c2 && utf8_cont c3 then
          some (utf8_cp4 b c1 c2 c3, rest3)
        else none
      | _ => none
    else none

/-- Fuel-indexed strict UTF-8 decoding: decode scalars one at a time.
Each scalar consumes at least one byte, so fuel equal to the byte length
always suffices (the `0` case is unreachable then). -/
def utf8_decode_aux : Nat → List Nat → Option (List Nat)
  | _, [] => some []
  | 0, _ :: _ => none
  | fuel + 1, b :: rest =>
    match utf8_step (b :: rest) with
    | none => none
    | some (c, rest2) => (utf8_decode_aux fuel rest2).map (fun cs => c :: cs)

/-- Strict UTF-8 decoding of a byte sequence into code points
(Python `bytes.decode("utf-8")`). -/
def utf8_decode (bs : List Nat) : Option (List Nat) := utf8_decode_aux bs.length bs

/-- Spec-side definition: the UTF-8 encoding of one Unicode scalar value
(surrogates and values above `0x10FFFF` have no encoding). -/
def utf8_encode_char (c : Nat) : Option (List Nat) :=
  if c < 128 then some [c]
  else if c < 2048 then some [192 + c / 64, 128 + c % 64]
  else if c < 65536 then
    if 55296 ≤ c && c ≤ 57343 then none
    else some [224 + c / 4096, 128 + c / 64 % 64, 128 + c % 64]
  else if c < 1114112 then
    some [240 + c / 262144, 128 + c / 4096 % 64, 128 + c / 64 % 64, 128 + c % 64]
  else none

/-- Spec-side definition: the UTF-8 encoding of a code-point sequence. -/
def utf8_encode : List Nat → Option (List Nat)
  | [] => some []
  | c :: cs =>
    match utf8_encode_char c, utf8_encode cs with
    | some bs, some rest => some (bs ++ rest)
    | _, _ => none

/-- Python `bytes.decode("latin-1")`: every byte maps to the code point of
the same value; this decoding is total. -/
def latin1_decode (bs : List Nat) : Option (List Nat) := some bs

/-- Result of `safe_decode`: decoded text (a code-point sequence) or the
raw `str(byte_string)` representation. -/
inductive Decoded where
  | text : List Nat → Decoded
  | raw : List Nat → Decoded
deriving DecidableEq

/-- `safe_decode` (source lines 41-51): `""` for `None`, else UTF-8, else
latin-1, else the raw `str(...)` representation. -/
def safe_decode : Option (List Nat) → Decoded
  | none => .text []
  | some bs =>
    match utf8_decode bs with
    | some cs => .text cs
    | none =>
      match latin1_decode bs with
      | some cs => .text cs
      | none => .raw bs

/-- Concrete `float(...)` parser used by the concrete instantiations
below: accepts exactly the answer text `"2.0"`. -/
def cexParse : String → Option Rat := fun s => if s = "2.0" then some 2 else none

/-- Concrete answer stream: every prompt is answered `"2.0"`. -/
def cexAns : Nat → String := fun _ => "2.0"

/-- Concrete float rendering used at speed 2.0. -/
def cexFmt : Rat → String := fun _ => "2.0"

/-- Transcode oracle on which every invocation fails (exit status 1). -/
def cexExecFail : List String → Nat := fun _ => 1

/-- Transcode oracle on which every invocation succeeds. -/
def cexExecOk : List String → Nat := fun _ => 0

/-- Concrete creation-date oracle. -/
def cexCtime : FsPath → Date := fun _ => ⟨2024, 1, 2⟩

theorem tupleLt_append_self (a r : List String) : tupleLt (a ++ r) a = false := by
  induction a with
  | nil => cases r <;> rfl
  | cons x xs ih => simp [tupleLt, ih]

theorem walkChain_nil (inputP : FsPath) : walkChain inputP [] = [inputP] := by
  simp [walkChain, List.range_succ]

theorem dropLast_take_eq (r : List String) (k : Nat) (hk : k < r.length) :
    r.dropLast.take k = r.take k := by
  rw [List.dropLast_eq_take, List.take_take]
  congr 1
  omega

theorem walkChain_cons (inputP : FsPath) (r : List String) (h : r ≠ []) :
    walkChain inputP r = (inputP ++ r) :: walkChain inputP r.dropLast := by
  have hlen : r.length = r.dropLast.length + 1 := by
    have : 0 < r.length := List.length_pos.mpr h
    simp [List.length_dropLast]
    omega
  unfold walkChain
  rw [hlen, List.range_succ, List.reverse_append]
  simp only [List.reverse_cons, List.reverse_nil, List.nil_append, List.cons_append,
    List.map_cons]
  congr 1
  · rw [← hlen, List.take_length]
  · apply List.map_congr_left
    intro k hk
    rw [List.mem_reverse, List.mem_range] at hk
    rw [dropLast_take_eq r k (by omega)]

theorem pyParent_append (inputP : FsPath) (rel : List String) (h1 : rel ≠ [])
    (h2 : "/" ∉ rel) : pyParent (inputP ++ rel) = inputP ++ rel.dropLast := by
  unfold pyParent
  rw [if_neg, List.dropLast_append_of_ne_nil inputP h1]
  intro heq
  cases inputP with
  | nil =>
    simp only [List.nil_append] at heq
    subst heq
    simp at h2
  | cons x xs =>
    have hl := congrArg List.length heq
    simp only [List.length_append, List.length_cons, List.length_nil] at hl
    have hrl : 0 < rel.length := List.length_pos.mpr h1
    omega

theorem dropLast_not_mem {a : String} {r : List String} (h : a ∉ r) :
    a ∉ r.dropLast := by
  intro hmem
  exact h (List.dropLast_subset r hmem)

theorem find_closest_aux_eq (speeds : List (FsPath × Rat)) (inputP : FsPath) :
    ∀ fuel r, "/" ∉ r → r.length < fuel →
      find_closest_aux speeds inputP fuel (inputP ++ r) =
        some ((walkChain inputP r).find? (fun p => dictContains speeds p)) := by
  intro fuel
  induction fuel with
  | zero => intro r h2 hf; omega
  | succ f ih =>
    intro r h2 hf
    have hge : tupleGe (inputP ++ r) inputP = true := by
      simp [tupleGe, tupleLt_append_self]
    cases hr : r with
    | nil =>
      subst hr
      simp only [List.append_nil] at hge ⊢
      by_cases hc : dictContains speeds inputP = true
      · simp [find_closest_aux, hge, hc, walkChain_nil]
      · simp only [Bool.not_eq_true] at hc
        simp [find_closest_aux, hge, hc, walkChain_nil]
    | cons x xs =>
      rw [← hr]
      have hrne : r ≠ [] := by rw [hr]; simp
      by_cases hc : dictContains speeds (inputP ++ r) = true
      · rw [walkChain_cons inputP r hrne]
        simp [find_closest_aux, hge, hc]
      · have hne : inputP ++ r ≠ inputP := by
          intro heq
          have := congrArg List.length heq
          simp at this
          exact hrne this
        simp only [Bool.not_eq_true] at hc
        rw [walkChain_cons inputP r hrne]
        rw [List.find?_cons_of_neg _ (by simp [hc])]
        rw [show find_closest_aux speeds inputP (f + 1) (inputP ++ r) =
            find_closest_aux speeds inputP f (pyParent (inputP ++ r)) by
          simp [find_closest_aux, hge, hc, hne]]
        rw [pyParent_append inputP r hrne h2]
        exact ih r.dropLast (dropLast_not_mem h2) (by
          have : 0 < r.length := List.length_pos.mpr hrne
          simp [List.length_dropLast]; omega)

theorem ancestorChain_eq_walkChain (inputP : FsPath) (rel : List String)
    (h1 : rel ≠ []) : ancestorChain inputP rel = walkChain inputP rel.dropLast := by
  have hlen : rel.length = rel.dropLast.length + 1 := by
    have : 0 < rel.length := List.length_pos.mpr h1
    simp [List.length_dropLast]
    omega
  unfold ancestorChain walkChain
  rw [← hlen]
  apply List.map_congr_left
  intro k hk
  rw [List.mem_reverse, List.mem_range] at hk
  rw [dropLast_take_eq rel k hk]

theorem dictFind_eq_none {α : Type} (m : List (FsPath × α)) (k : FsPath)
    (h : dictContains m k = false) : dictFind m k = none := by
  unfold dictContains at h
  unfold dictFind
  rw [List.find?_eq_none.mpr]
  · rfl
  · intro x hx
    rw [List.any_eq_false] at h
    simp [h x hx]

theorem dictFind_isSome_of_contains {α : Type} (m : List (FsPath × α)) (k : FsPath)
    (h : dictContains m k = true) : (dictFind m k).isSome = true := by
  unfold dictContains at h
  rw [List.any_eq_true] at h
  obtain ⟨kv, hmem, hkv⟩ := h
  unfold dictFind
  cases hfind : List.find? (fun kv => kv.1 == k) m with
  | none =>
    rw [List.find?_eq_none] at hfind
    exact absurd hkv (by simpa using hfind kv hmem)
  | some x => simp

theorem closest_parent_eq_spec (speeds : List (FsPath × Rat)) (inputP : FsPath)
    (rel : List String) (h1 : rel ≠ []) (h2 : "/" ∉ rel) :
    closest_parent speeds inputP (inputP ++ rel) = spec_group speeds inputP rel := by
  unfold closest_parent spec_group
  rw [pyParent_append inputP rel h1 h2]
  rw [find_closest_aux_eq speeds inputP (inputP ++ rel).length rel.dropLast
    (dropLast_not_mem h2)
    (by
      have : 0 < rel.length := List.length_pos.mpr h1
      simp [List.length_dropLast]
      omega)]
  rw [ancestorChain_eq_walkChain inputP rel h1]
  cases hfind : (walkChain inputP rel.dropLast).find? (fun p => dictContains speeds p) with
  | none => rfl
  | some p => rfl

theorem inputP_mem_ancestorChain (inputP : FsPath) (rel : List String)
    (h1 : rel ≠ []) : inputP ∈ ancestorChain inputP rel := by
  unfold ancestorChain
  rw [List.mem_map]
  refine ⟨0, ?_, by simp⟩
  rw [List.mem_reverse, List.mem_range]
  exact List.length_pos.mpr h1

theorem speed_eq_spec (speeds : List (FsPath × Rat)) (inputP : FsPath)
    (rel : List String) (h1 : rel ≠ []) (h2 : "/" ∉ rel) :
    dictGetD speeds (closest_parent speeds inputP (inputP ++ rel)) 2 =
      spec_speed speeds inputP rel := by
  rw [closest_parent_eq_spec speeds inputP rel h1 h2]
  unfold spec_group spec_speed
  cases hfind : (ancestorChain inputP rel).find? (fun p => dictContains speeds p) with
  | some p => simp
  | none =>
    simp only [Option.getD_none]
    have hpred := List.find?_eq_none.mp hfind inputP (inputP_mem_ancestorChain inputP rel h1)
    simp only [Bool.not_eq_true] at hpred
    unfold dictGetD
    rw [dictFind_eq_none speeds inputP hpred]
    rfl

/-- C10: for every file discovered under the input root (so its path is the
root followed by a nonempty relative component list), the ancestor-walk
loop searching for the nearest folder with a configured speed terminates:
with any fuel at least the file's relative depth the fuel is never
exhausted, because each iteration either breaks or moves one directory
closer to the input root. -/
theorem claim_C10 (speeds : List (FsPath × Rat)) (inputP : FsPath)
    (rel : List String) (h1 : rel ≠ []) (h2 : "/" ∉ rel) (fuel : Nat)
    (hf : rel.length ≤ fuel) :
    find_closest_aux speeds inputP fuel (pyParent (inputP ++ rel)) ≠ none := by
  rw [pyParent_append inputP rel h1 h2]
  rw [find_closest_aux_eq speeds inputP fuel rel.dropLast (dropLast_not_mem h2)
    (by
      have : 0 < rel.length := List.length_pos.mpr h1
      simp [List.length_dropLast]
      omega)]
  simp

/-- C10 witness: the loop terminates on a concrete two-deep file. -/
theorem claim_C10_witness :
    find_closest_aux [] ["in"] 2 (pyParent (["in"] ++ ["x", "b.mp3"])) ≠ none :=
  claim_C10 [] ["in"] ["x", "b.mp3"] (by decide) (by decide) 2 (by decide)

theorem dict_append_cons_ne (kv0 : FsPath × List FsPath)
    (rest : List (FsPath × List FsPath)) (k v : FsPath)
    (h0 : (kv0.1 == k) = false) :
    dict_append (kv0 :: rest) k v = kv0 :: dict_append rest k v := by
  have h0n : kv0.1 ≠ k := by simpa using h0
  unfold dict_append
  simp only [List.any_cons, h0, Bool.false_or]
  split
  · simp [h0, h0n]
  · simp

theorem dict_append_keys_nodup (d : List (FsPath × List FsPath)) (k v : FsPath)
    (h : (d.map Prod.fst).Nodup) : ((dict_append d k v).map Prod.fst).Nodup := by
  unfold dict_append
  split
  · have heq : (d.map (fun kv => if kv.1 == k then (kv.1, kv.2 ++ [v]) else kv)).map
        Prod.fst = d.map Prod.fst := by
      rw [List.map_map]
      apply List.map_congr_left
      intro kv _
      simp only [Function.comp_apply]
      split <;> rfl
    rw [heq]
    exact h
  · rename_i hany
    rw [List.map_append, List.nodup_append]
    refine ⟨h, by simp, ?_⟩
    intro x hx hx2
    simp only [List.map_cons, List.map_nil, List.mem_singleton] at hx2
    subst hx2
    rw [List.mem_map] at hx
    obtain ⟨kv, hkvmem, hfst⟩ := hx
    simp only [List.any_eq_true, not_exists, not_and] at hany
    exact hany kv hkvmem (by simp [hfst])

theorem dict_append_count (k v f : FsPath) :
    ∀ d : List (FsPath × List FsPath), (d.map Prod.fst).Nodup →
      ((dict_append d k v).map (fun kv => kv.2.count f)).sum =
        ((d.map (fun kv => kv.2.count f)).sum + List.count f [v]) := by
  intro d
  induction d with
  | nil => intro _; simp [dict_append]
  | cons kv0 rest ih =>
    intro hnd
    by_cases h0 : (kv0.1 == k) = true
    · have hk : kv0.1 = k := by simpa using h0
      unfold dict_append
      rw [if_pos (by simp [List.any_cons, h0])]
      simp only [List.map_cons, h0, if_true, List.sum_cons]
      have hrest : rest.map (fun kv => if kv.1 == k then (kv.1, kv.2 ++ [v]) else kv) =
          rest := by
        have hnotin : k ∉ rest.map Prod.fst := by
          rw [List.map_cons, List.nodup_cons] at hnd
          rw [← hk]
          exact hnd.1
        rw [show rest.map (fun kv => if kv.1 == k then (kv.1, kv.2 ++ [v]) else kv) =
            rest.map (fun kv => kv) from ?_, List.map_id']
        apply List.map_congr_left
        intro kv hkv
        rw [if_neg]
        intro hbeq
        exact hnotin (List.mem_map.mpr ⟨kv, hkv, by simpa using hbeq⟩)
      rw [hrest]
      simp only [List.count_append]
      omega
    · have hnd1 : (rest.map Prod.fst).Nodup := by
        rw [List.map_cons, List.nodup_cons] at hnd
        exact hnd.2
      rw [dict_append_cons_ne kv0 rest k v (by simpa using h0)]
      simp only [List.map_cons, List.sum_cons]
      rw [ih hnd1]
      omega

theorem files_by_folder_aux_nodup (speeds : List (FsPath × Rat)) (inputP : FsPath) :
    ∀ (files : List FsPath) (d : List (FsPath × List FsPath)),
      (d.map Prod.fst).Nodup →
      ((files.foldl (fun d f => dict_append d (closest_parent speeds inputP f) f) d).map
        Prod.fst).Nodup := by
  intro files
  induction files with
  | nil => intro d hd; exact hd
  | cons f rest ih =>
    intro d hd
    exact ih _ (dict_append_keys_nodup d _ f hd)

theorem files_by_folder_aux_count (speeds : List (FsPath × Rat)) (inputP : FsPath)
    (x : FsPath) :
    ∀ (files : List FsPath) (d : List (FsPath × List FsPath)),
      (d.map Prod.fst).Nodup →
      (((files.foldl (fun d f => dict_append d (closest_parent speeds inputP f) f) d).map
          (fun kv => kv.2.count x)).sum) =
        (d.map (fun kv => kv.2.count x)).sum + files.count x := by
  intro files
  induction files with
  | nil => intro d hd; simp
  | cons f rest ih =>
    intro d hd
    simp only [List.foldl_cons]
    rw [ih _ (dict_append_keys_nodup d _ f hd)]
    rw [dict_append_count _ f x d hd]
    simp only [List.count_cons]
    by_cases hfx : (f == x) = true
    · simp [hfx]
      omega
    · simp only [Bool.not_eq_true] at hfx
      simp [hfx]

theorem dict_append_mem_inv (P : FsPath → FsPath → Prop)
    (d : List (FsPath × List FsPath)) (k v : FsPath)
    (hd : ∀ kv ∈ d, ∀ x ∈ kv.2, P kv.1 x) (hkv : P k v) :
    ∀ kv ∈ dict_append d k v, ∀ x ∈ kv.2, P kv.1 x := by
  unfold dict_append
  split
  · intro kv hkv2 x hx
    rw [List.mem_map] at hkv2
    obtain ⟨kv0, hkv0, heq⟩ := hkv2
    by_cases h0 : (kv0.1 == k) = true
    · rw [if_pos h0] at heq
      subst heq
      simp only [List.mem_append, List.mem_singleton] at hx
      cases hx with
      | inl hx0 => exact hd kv0 hkv0 x hx0
      | inr hxv =>
        have hk : kv0.1 = k := by simpa using h0
        show P kv0.1 x
        rw [hk, hxv]
        exact hkv
    · rw [if_neg h0] at heq
      subst heq
      exact hd kv0 hkv0 x hx
  · intro kv hkv2 x hx
    rw [List.mem_append, List.mem_singleton] at hkv2
    cases hkv2 with
    | inl hkd => exact hd kv hkd x hx
    | inr hknew =>
      subst hknew
      simp only [List.mem_singleton] at hx
      subst hx
      exact hkv

theorem files_by_folder_aux_mem (speeds : List (FsPath × Rat)) (inputP : FsPath) :
    ∀ (files : List FsPath) (d : List (FsPath × List FsPath)),
      (∀ kv ∈ d, ∀ x ∈ kv.2, kv.1 = closest_parent speeds inputP x) →
      ∀ kv ∈ files.foldl (fun d f => dict_append d (closest_parent speeds inputP f) f) d,
        ∀ x ∈ kv.2, kv.1 = closest_parent speeds inputP x := by
  intro files
  induction files with
  | nil => intro d hd; exact hd
  | cons f rest ih =>
    intro d hd
    apply ih
    exact dict_append_mem_inv (fun a b => a = closest_parent speeds inputP b) d _ f hd rfl

/-- C1: the group of a discovered file (its path being the input root
followed by a nonempty relative component list) is the closest ancestor
directory, from the file's parent up to the input root, that is a key of
the speed map, and the speed resolved for it is that group's value,
defaulting to 2.0 when no ancestor (the root included) has a speed.
Moreover the grouping pass assigns each file to exactly one group list
(total multiplicity over all groups equals the file's multiplicity in the
discovery list, and every group list holds only files whose closest
configured ancestor is that group's key). -/
theorem claim_C1 (speeds : List (FsPath × Rat)) (inputP : FsPath)
    (rel : List String) (files : List FsPath) (f : FsPath)
    (h1 : rel ≠ []) (h2 : "/" ∉ rel) :
    closest_parent speeds inputP (inputP ++ rel) = spec_group speeds inputP rel
    ∧ dictGetD speeds (closest_parent speeds inputP (inputP ++ rel)) 2 =
        spec_speed speeds inputP rel
    ∧ ((files_by_folder speeds inputP files).map (fun kv => kv.2.count f)).sum =
        files.count f
    ∧ ∀ kv ∈ files_by_folder speeds inputP files, ∀ x ∈ kv.2,
        kv.1 = closest_parent speeds inputP x := by
  refine ⟨closest_parent_eq_spec speeds inputP rel h1 h2,
    speed_eq_spec speeds inputP rel h1 h2, ?_, ?_⟩
  · unfold files_by_folder
    rw [files_by_folder_aux_count speeds inputP f files [] (by simp)]
    simp
  · unfold files_by_folder
    exact files_by_folder_aux_mem speeds inputP files [] (by simp)

/-- C1 witness: a concrete two-level layout; the file `in/x/y/b.m4a` is
grouped under `in/x` (the closest configured ancestor) at speed 3, and the
grouping of a concrete discovery list is checked. -/
theorem claim_C1_witness :
    closest_parent [(["in"], (2 : Rat)), (["in", "x"], 3)] ["in"]
        (["in"] ++ ["x", "y", "b.m4a"]) =
      spec_group [(["in"], (2 : Rat)), (["in", "x"], 3)] ["in"] ["x", "y", "b.m4a"]
    ∧ dictGetD [(["in"], (2 : Rat)), (["in", "x"], 3)]
        (closest_parent [(["in"], (2 : Rat)), (["in", "x"], 3)] ["in"]
          (["in"] ++ ["x", "y", "b.m4a"])) 2 =
      spec_speed [(["in"], (2 : Rat)), (["in", "x"], 3)] ["in"] ["x", "y", "b.m4a"]
    ∧ ((files_by_folder [(["in"], (2 : Rat)), (["in", "x"], 3)] ["in"]
          [["in", "a.mp3"], ["in", "x", "y", "b.m4a"]]).map
        (fun kv => kv.2.count ["in", "x", "y", "b.m4a"])).sum =
      ([["in", "a.mp3"], ["in", "x", "y", "b.m4a"]] : List FsPath).count
        ["in", "x", "y", "b.m4a"]
    ∧ ∀ kv ∈ files_by_folder [(["in"], (2 : Rat)), (["in", "x"], 3)] ["in"]
          [["in", "a.mp3"], ["in", "x", "y", "b.m4a"]], ∀ x ∈ kv.2,
        kv.1 = closest_parent [(["in"], (2 : Rat)), (["in", "x"], 3)] ["in"] x :=
  claim_C1 [(["in"], (2 : Rat)), (["in", "x"], 3)] ["in"] ["x", "y", "b.m4a"]
    [["in", "a.mp3"], ["in", "x", "y", "b.m4a"]] ["in", "x", "y", "b.m4a"]
    (by decide) (by decide)

theorem except_isSome_iff {ε α : Type} (x : Except ε α) :
    x.toOption.isSome = true ↔ ∃ m, x = .ok m := by
  cases x <;> simp [Except.toOption]

theorem ask_speeds_ok_iff (parse : String → Option Rat) (ans : Nat → String)
    (inputP : FsPath) :
    ∀ (lst : List String) (i : Nat),
      (∃ m, ask_speeds parse ans inputP lst i = .ok m) ↔
        ∀ j < lst.length, (parse (ans (i + j))).isSome = true := by
  intro lst
  induction lst with
  | nil => intro i; simp [ask_speeds]
  | cons name rest ih =>
    intro i
    rw [ask_speeds]
    cases hp : parse (ans i) with
    | none =>
      simp only [List.length_cons]
      constructor
      · intro h
        obtain ⟨m, hm⟩ := h
        exact absurd hm (by simp)
      · intro h
        have h0 := h 0 (by omega)
        rw [Nat.add_zero, hp] at h0
        simp at h0
    | some v =>
      cases hr : ask_speeds parse ans inputP rest (i + 1) with
      | error e =>
        simp only [List.length_cons]
        constructor
        · intro h
          obtain ⟨m, hm⟩ := h
          exact absurd hm (by simp)
        · intro h
          have : ∃ m, ask_speeds parse ans inputP rest (i + 1) = .ok m := by
            apply (ih (i + 1)).mpr
            intro j hj
            have := h (j + 1) (by omega)
            rwa [show i + (j + 1) = i + 1 + j by omega] at this
          exact absurd this (by simp [hr])
      | ok m0 =>
        simp only [List.length_cons]
        constructor
        · intro _ j hj
          cases j with
          | zero => rw [Nat.add_zero, hp]; rfl
          | succ j0 =>
            have := (ih (i + 1)).mp ⟨m0, hr⟩ j0 (by omega)
            rw [show i + 1 + j0 = i + (j0 + 1) by omega] at this
            exact this
        · intro _
          exact ⟨(inputP ++ [name], v) :: m0, rfl⟩

theorem ask_speeds_ext (parse : String → Option Rat) (ans ans2 : Nat → String)
    (inputP : FsPath) :
    ∀ (lst : List String) (i : Nat),
      (∀ j < lst.length, ans (i + j) = ans2 (i + j)) →
      ask_speeds parse ans inputP lst i = ask_speeds parse ans2 inputP lst i := by
  intro lst
  induction lst with
  | nil => intro i _; rfl
  | cons name rest ih =>
    intro i h
    rw [ask_speeds, ask_speeds]
    have h0 : ans i = ans2 i := by
      have := h 0 (by simp)
      rwa [Nat.add_zero] at this
    rw [h0]
    cases parse (ans2 i) with
    | none => rfl
    | some v =>
      rw [ih (i + 1) (by
        intro j hj
        have := h (j + 1) (by simp; omega)
        rwa [show i + (j + 1) = i + 1 + j by omega] at this)]

theorem get_subfolder_speeds_ok_iff (parse : String → Option Rat)
    (ans : Nat → String) (inputP : FsPath) (subNames : List String) :
    (∃ m, get_subfolder_speeds parse ans inputP subNames = .ok m) ↔
      ∀ j < 1 + subNames.length, (parse (ans j)).isSome = true := by
  cases subNames with
  | nil =>
    unfold get_subfolder_speeds
    cases hp : parse (ans 0) with
    | none =>
      constructor
      · intro h; obtain ⟨m, hm⟩ := h; exact absurd hm (by simp)
      · intro h
        have := h 0 (by omega)
        rw [hp] at this
        simp at this
    | some v =>
      constructor
      · intro _ j hj
        simp only [List.length_nil] at hj
        have hj0 : j = 0 := by omega
        rw [hj0, hp]
        rfl
      · intro _; exact ⟨[(inputP, v)], rfl⟩
  | cons name rest =>
    unfold get_subfolder_speeds
    cases hp : parse (ans 0) with
    | none =>
      constructor
      · intro h; obtain ⟨m, hm⟩ := h; exact absurd hm (by simp)
      · intro h
        have := h 0 (by omega)
        rw [hp] at this
        simp at this
    | some v0 =>
      cases hr : ask_speeds parse ans inputP (name :: rest) 1 with
      | error e =>
        constructor
        · intro h; obtain ⟨m, hm⟩ := h; exact absurd hm (by simp)
        · intro h
          have : ∃ m, ask_speeds parse ans inputP (name :: rest) 1 = .ok m := by
            apply (ask_speeds_ok_iff parse ans inputP (name :: rest) 1).mpr
            intro j hj
            have := h (1 + j) (by simp at hj ⊢; omega)
            rwa [show (1 + j) = 1 + j by rfl] at this
          exact absurd this (by simp [hr])
      | ok m0 =>
        constructor
        · intro _ j hj
          cases j with
          | zero => rw [hp]; rfl
          | succ j0 =>
            have := (ask_speeds_ok_iff parse ans inputP (name :: rest) 1).mp
              ⟨m0, hr⟩ j0 (by simp at hj ⊢; omega)
            rwa [show 1 + j0 = j0 + 1 by omega] at this
        · intro _; exact ⟨(inputP, v0) :: m0, rfl⟩

theorem get_subfolder_speeds_ext (parse : String → Option Rat)
    (ans ans2 : Nat → String) (inputP : FsPath) (subNames : List String)
    (h : ∀ j < 1 + subNames.length, ans j = ans2 j) :
    get_subfolder_speeds parse ans inputP subNames =
      get_subfolder_speeds parse ans2 inputP subNames := by
  cases subNames with
  | nil =>
    unfold get_subfolder_speeds
    rw [h 0 (by omega)]
  | cons name rest =>
    unfold get_subfolder_speeds
    rw [h 0 (by omega)]
    cases parse (ans2 0) with
    | none => rfl
    | some v0 =>
      rw [ask_speeds_ext parse ans ans2 inputP (name :: rest) 1 (by
        intro j hj
        exact h (1 + j) (by simp at hj ⊢; omega))]

theorem get_subfolder_speeds_root_mem (parse : String → Option Rat)
    (ans : Nat → String) (inputP : FsPath) (subNames : List String)
    (m : List (FsPath × Rat))
    (h : get_subfolder_speeds parse ans inputP subNames = .ok m) :
    dictContains m inputP = true := by
  unfold get_subfolder_speeds at h
  cases subNames with
  | nil =>
    cases hp : parse (ans 0) with
    | none => rw [hp] at h; exact absurd h (by simp)
    | some v =>
      rw [hp] at h
      have hm : m = [(inputP, v)] := by
        have := h
        simp at this
        exact this.symm
      rw [hm]
      simp [dictContains]
  | cons name rest =>
    cases hp : parse (ans 0) with
    | none => rw [hp] at h; exact absurd h (by simp)
    | some v0 =>
      rw [hp] at h
      cases hr : ask_speeds parse ans inputP (name :: rest) 1 with
      | error e => rw [hr] at h; exact absurd h (by simp)
      | ok m0 =>
        rw [hr] at h
        have hm : m = (inputP, v0) :: m0 := by
          have := h
          simp at this
          exact this.symm
        rw [hm]
        simp [dictContains]

theorem closest_parent_contains (speeds : List (FsPath × Rat)) (inputP : FsPath)
    (rel : List String) (h1 : rel ≠ []) (h2 : "/" ∉ rel)
    (hroot : dictContains speeds inputP = true) :
    dictContains speeds (closest_parent speeds inputP (inputP ++ rel)) = true := by
  rw [closest_parent_eq_spec speeds inputP rel h1 h2]
  unfold spec_group
  cases hfind : (ancestorChain inputP rel).find? (fun p => dictContains speeds p) with
  | none => simpa using hroot
  | some p =>
    have := List.find?_some hfind
    simpa using this

/-- C6: the speed-configuration step consumes exactly one interactive
answer per folder (the input root plus each immediate subfolder): it
succeeds exactly when each of the first `1 + n` answers parses as a
number, its result depends only on those answers, and a parse failure
aborts `process_audio_files` before any file outcome or invocation is
produced. -/
theorem claim_C6 (parse : String → Option Rat) (ans ans2 : Nat → String)
    (inputP : FsPath) (subNames : List String) :
    ((get_subfolder_speeds parse ans inputP subNames).toOption.isSome = true ↔
      ∀ j < 1 + subNames.length, (parse (ans j)).isSome = true)
    ∧ ((∀ j < 1 + subNames.length, ans j = ans2 j) →
      get_subfolder_speeds parse ans inputP subNames =
        get_subfolder_speeds parse ans2 inputP subNames)
    ∧ (∀ e, get_subfolder_speeds parse ans inputP subNames = .error e →
      ∀ fmt exec ctime allFiles outputP existing0,
        process_audio_files parse fmt exec ctime allFiles subNames ans inputP
          outputP existing0 = .error e) := by
  refine ⟨?_, get_subfolder_speeds_ext parse ans ans2 inputP subNames, ?_⟩
  · rw [except_isSome_iff]
    exact get_subfolder_speeds_ok_iff parse ans inputP subNames
  · intro e he fmt exec ctime allFiles outputP existing0
    unfold process_audio_files
    rw [he]

/-- C6 witness: with one subfolder both prompts are consumed and parse,
so the configuration step succeeds. -/
theorem claim_C6_witness :
    (get_subfolder_speeds cexParse cexAns ["in"] ["x"]).toOption.isSome = true :=
  (claim_C6 cexParse cexAns cexAns ["in"] ["x"]).1.mpr (by decide)

/-- C8: the speed map returned by the configuration step always contains
the input root as a key, and therefore the group computed for any
discovered file is itself a key of the map, so the 2.0 default of
`subfolder_speeds.get(folder, 2.0)` is never used: the lookup returns the
stored value whatever the default. -/
theorem claim_C8 (parse : String → Option Rat) (ans : Nat → String)
    (inputP : FsPath) (subNames : List String) (m : List (FsPath × Rat))
    (rel : List String)
    (hok : get_subfolder_speeds parse ans inputP subNames = .ok m)
    (h1 : rel ≠ []) (h2 : "/" ∉ rel) :
    dictContains m inputP = true
    ∧ ∃ v, dictFind m (closest_parent m inputP (inputP ++ rel)) = some v
      ∧ ∀ dflt, dictGetD m (closest_parent m inputP (inputP ++ rel)) dflt = v := by
  have hroot := get_subfolder_speeds_root_mem parse ans inputP subNames m hok
  refine ⟨hroot, ?_⟩
  have hc := closest_parent_contains m inputP rel h1 h2 hroot
  have hs := dictFind_isSome_of_contains m _ hc
  obtain ⟨v, hv⟩ := Option.isSome_iff_exists.mp hs
  refine ⟨v, hv, fun dflt => ?_⟩
  unfold dictGetD
  rw [hv]
  rfl

/-- C8 witness: a concrete configuration run with one subfolder; the file
`in/x/b.m4a` resolves to a key of the returned map. -/
theorem claim_C8_witness :
    dictContains [(["in"], (2 : Rat)), (["in", "x"], 2)] ["in"] = true
    ∧ ∃ v, dictFind [(["in"], (2 : Rat)), (["in", "x"], 2)]
        (closest_parent [(["in"], (2 : Rat)), (["in", "x"], 2)] ["in"]
          (["in"] ++ ["x", "b.m4a"])) = some v
      ∧ ∀ dflt, dictGetD [(["in"], (2 : Rat)), (["in", "x"], 2)]
          (closest_parent [(["in"], (2 : Rat)), (["in", "x"], 2)] ["in"]
            (["in"] ++ ["x", "b.m4a"])) dflt = v :=
  claim_C8 cexParse cexAns ["in"] ["x"] [(["in"], (2 : Rat)), (["in", "x"], 2)]
    ["x", "b.m4a"] (by rfl) (by decide) (by decide)

theorem digitChar_toNat_aux : ∀ k < 10, (Char.ofNat (48 + k)).toNat = 48 + k := by
  decide

theorem digitChar_toNat (n : Nat) : (digitChar n).toNat = 48 + n % 10 := by
  unfold digitChar
  exact digitChar_toNat_aux (n % 10) (Nat.mod_lt _ (by omega))

theorem isDigitChar_digitChar (n : Nat) : isDigitChar (digitChar n) = true := by
  unfold isDigitChar
  rw [digitChar_toNat]
  have : n % 10 < 10 := Nat.mod_lt _ (by omega)
  simp only [Bool.and_eq_true, decide_eq_true_eq]
  omega

theorem digitVal_digitChar (n : Nat) : digitVal (digitChar n) = n % 10 := by
  unfold digitVal
  rw [digitChar_toNat]
  omega

theorem date_toList (y m d : Nat) :
    (get_creation_date ⟨y, m, d⟩).toList =
      [digitChar (y / 1000), digitChar (y / 100), digitChar (y / 10), digitChar y,
       '-', digitChar (m / 10), digitChar m, '-', digitChar (d / 10), digitChar d] :=
  rfl

theorem parse_iso_roundtrip (y m d : Nat) (hy : y < 10000) (hm : m < 100)
    (hd : d < 100) : parse_iso (get_creation_date ⟨y, m, d⟩) = some (y, m, d) := by
  unfold parse_iso
  rw [date_toList]
  show parse_iso_fields (digitChar (y / 1000)) (digitChar (y / 100))
    (digitChar (y / 10)) (digitChar y) '-' (digitChar (m / 10)) (digitChar m) '-'
    (digitChar (d / 10)) (digitChar d) = some (y, m, d)
  unfold parse_iso_fields
  rw [if_pos]
  · simp only [digitVal_digitChar, Option.some.injEq, Prod.mk.injEq]
    refine ⟨by omega, by omega, by omega⟩
  · refine ⟨rfl, rfl, ?_⟩
    simp [isDigitChar_digitChar]

theorem getLastD_append_str (inputP rel : List String) (h1 : rel ≠ []) :
    (inputP ++ rel).getLastD "" = rel.getLastD "" := by
  rw [List.getLastD_eq_getLast?, List.getLastD_eq_getLast?, List.getLast?_append]
  cases hr : rel.getLast? with
  | none =>
    exfalso
    cases rel with
    | nil => exact h1 rfl
    | cons a l =>
      rw [List.getLast?_eq_getLast (a :: l) (by simp)] at hr
      exact absurd hr (by simp)
  | some x => rfl

theorem output_file_for_append (inputP outputP : FsPath) (ctime : FsPath → Date)
    (rel : List String) (h1 : rel ≠ []) :
    output_file_for inputP outputP ctime (inputP ++ rel) =
      outputP ++ rel.dropLast ++
        [get_creation_date (ctime (inputP ++ rel)) ++ "-" ++ rel.getLastD ""] := by
  simp only [output_file_for, relative_to]
  rw [if_pos (by simp)]
  simp only [Option.getD_some]
  rw [List.drop_left]
  rw [getLastD_append_str inputP rel h1]

/-- C3: for a file below the input root, the computed destination is the
output root joined with the file's relative subdirectory, and the
destination filename is the file's creation date, a hyphen, and the
original filename; the rendered creation date parses back as
`YYYY-MM-DD` (four-digit zero-padded year, two-digit zero-padded month
and day, hyphen-separated). -/
theorem claim_C3 (inputP outputP : FsPath) (ctime : FsPath → Date)
    (rel : List String) (y m d : Nat) (h1 : rel ≠ [])
    (hct : ctime (inputP ++ rel) = ⟨y, m, d⟩) (hy : y < 10000) (hm : m < 100)
    (hd : d < 100) :
    output_file_for inputP outputP ctime (inputP ++ rel) =
      outputP ++ rel.dropLast ++
        [get_creation_date ⟨y, m, d⟩ ++ "-" ++ rel.getLastD ""]
    ∧ parse_iso (get_creation_date ⟨y, m, d⟩) = some (y, m, d) := by
  constructor
  · rw [output_file_for_append inputP outputP ctime rel h1, hct]
  · exact parse_iso_roundtrip y m d hy hm hd

/-- C3 witness: the file `in/x/a.mp3` created on 2024-01-02 lands at
`out/x/2024-01-02-a.mp3`. -/
theorem claim_C3_witness :
    output_file_for ["in"] ["out"] cexCtime (["in"] ++ ["x", "a.mp3"]) =
      ["out"] ++ (["x", "a.mp3"] : List String).dropLast ++
        [get_creation_date ⟨2024, 1, 2⟩ ++ "-" ++
          (["x", "a.mp3"] : List String).getLastD ""]
    ∧ parse_iso (get_creation_date ⟨2024, 1, 2⟩) = some (2024, 1, 2) :=
  claim_C3 ["in"] ["out"] cexCtime ["x", "a.mp3"] 2024 1 2 (by decide) rfl
    (by decide) (by decide) (by decide)

/-- C2: evaluation of the fallback ladder at a failing `.m4a` input: the
three tiers are invoked in order and the file is then reported failed,
but the tier-2 command does NOT have strictly fewer flags than tier 1 for
`.m4a` files: the garbled conditional expression
`"-q:a", "2" if mp3 else "-b:a", "192k" if not mp3 else None`
keeps a stray `-q:a` flag (with `-b:a` landing in its argument position),
giving six flags against tier 1's six.  For `.mp3` files the strict
decrease 7 > 5 > 3 does hold. -/
theorem claim_C2 :
    (process_file cexExecFail "2.0" ["in"] ["out"] cexCtime [] ["in", "b.m4a"]).2.2 =
      [tier1_cmd false "in/b.m4a" "2.0" "out/2024-01-02-b.m4a",
       alt_cmd false "in/b.m4a" "2.0" "out/2024-01-02-b.m4a",
       min_cmd "in/b.m4a" "2.0" "out/2024-01-02-b.m4a"]
    ∧ (process_file cexExecFail "2.0" ["in"] ["out"] cexCtime [] ["in", "b.m4a"]).1 =
        Outcome.failed
    ∧ flagCount (alt_cmd false "in/b.m4a" "2.0" "out/2024-01-02-b.m4a") =
        flagCount (tier1_cmd false "in/b.m4a" "2.0" "out/2024-01-02-b.m4a")
    ∧ "-q:a" ∈ alt_cmd false "in/b.m4a" "2.0" "out/2024-01-02-b.m4a"
    ∧ "-q:a" ∉ tier1_cmd false "in/b.m4a" "2.0" "out/2024-01-02-b.m4a"
    ∧ flagCount (alt_cmd true "in/a.mp3" "2.0" "out/a.mp3") <
        flagCount (tier1_cmd true "in/a.mp3" "2.0" "out/a.mp3")
    ∧ flagCount (min_cmd "in/b.m4a" "2.0" "out/b.m4a") <
        flagCount (alt_cmd false "in/b.m4a" "2.0" "out/b.m4a") := by
  decide

/-- C9: file discovery matches exactly the files below the input root
whose name ends with the lowercase `.mp3` or `.m4a` (mp3 matches listed
first); a file with an uppercase extension is never discovered, even
though the later codec-selection test lower-cases the suffix and would
class it as an mp3. -/
theorem claim_C9 :
    (∀ (allFiles : List FsPath) (inputP : FsPath) (f : FsPath),
      f ∈ audio_files allFiles inputP ↔
        f ∈ allFiles ∧ inputP.isPrefixOf f = true ∧ inputP.length < f.length ∧
          (strEndsWith (f.getLastD "") ".mp3" = true ∨
            strEndsWith (f.getLastD "") ".m4a" = true))
    ∧ audio_files [["in", "song.MP3"]] ["in"] = []
    ∧ pyLower (pySuffix "song.MP3") = ".mp3" := by
  refine ⟨?_, by decide, by decide⟩
  intro allFiles inputP f
  unfold audio_files glob_ext
  rw [List.mem_append, List.mem_filter, List.mem_filter]
  constructor
  · intro h
    cases h with
    | inl h =>
      obtain ⟨hmem, hcond⟩ := h
      simp only [Bool.and_eq_true, decide_eq_true_eq] at hcond
      exact ⟨hmem, hcond.1.1, hcond.1.2, Or.inl hcond.2⟩
    | inr h =>
      obtain ⟨hmem, hcond⟩ := h
      simp only [Bool.and_eq_true, decide_eq_true_eq] at hcond
      exact ⟨hmem, hcond.1.1, hcond.1.2, Or.inr hcond.2⟩
  · intro h
    obtain ⟨hmem, hpre, hlen, hext⟩ := h
    cases hext with
    | inl hext =>
      left
      refine ⟨hmem, ?_⟩
      simp only [Bool.and_eq_true, decide_eq_true_eq]
      exact ⟨⟨hpre, hlen⟩, hext⟩
    | inr hext =>
      right
      refine ⟨hmem, ?_⟩
      simp only [Bool.and_eq_true, decide_eq_true_eq]
      exact ⟨⟨hpre, hlen⟩, hext⟩

theorem contains_iff_mem_path (l : List FsPath) (x : FsPath) :
    l.contains x = true ↔ x ∈ l := by
  simp [List.contains_eq_any_beq, List.any_eq_true]

theorem process_file_skip (exec : List String → Nat) (speedStr : String)
    (inputP outputP : FsPath) (ctime : FsPath → Date) (existing : List FsPath)
    (file : FsPath)
    (h : existing.contains (output_file_for inputP outputP ctime file) = true) :
    process_file exec speedStr inputP outputP ctime existing file =
      (Outcome.skipped, existing, []) := by
  simp only [process_file]
  rw [if_pos h]

theorem process_file_exist_subset (exec : List String → Nat) (speedStr : String)
    (inputP outputP : FsPath) (ctime : FsPath → Date) (existing : List FsPath)
    (file : FsPath) :
    existing ⊆ (process_file exec speedStr inputP outputP ctime existing file).2.1 := by
  simp only [process_file]
  split_ifs <;> simp

theorem process_file_not_failed_mem (exec : List String → Nat) (speedStr : String)
    (inputP outputP : FsPath) (ctime : FsPath → Date) (existing : List FsPath)
    (file : FsPath)
    (h : (process_file exec speedStr inputP outputP ctime existing file).1 ≠
      Outcome.failed) :
    output_file_for inputP outputP ctime file ∈
      (process_file exec speedStr inputP outputP ctime existing file).2.1 := by
  simp only [process_file] at h ⊢
  split_ifs at h ⊢ with h1 h2 h3 h4
  · exact (contains_iff_mem_path existing _).mp h1
  · simp
  · simp
  · simp
  · exact absurd rfl h

theorem process_folder_cons (exec : List String → Nat) (fmt : Rat → String)
    (inputP outputP : FsPath) (ctime : FsPath → Date) (sp : Rat) (f : FsPath)
    (rest : List FsPath)
    (acc : List (FsPath × Outcome) × List FsPath × List (List String)) :
    process_folder exec fmt inputP outputP ctime sp (f :: rest) acc =
      process_folder exec fmt inputP outputP ctime sp rest
        (acc.1 ++ [(f, (process_file exec (fmt sp) inputP outputP ctime acc.2.1 f).1)],
         (process_file exec (fmt sp) inputP outputP ctime acc.2.1 f).2.1,
         acc.2.2 ++ (process_file exec (fmt sp) inputP outputP ctime acc.2.1 f).2.2) :=
  rfl

theorem process_folder_acc (exec : List String → Nat) (fmt : Rat → String)
    (inputP outputP : FsPath) (ctime : FsPath → Date) (sp : Rat) :
    ∀ (fs : List FsPath)
      (acc : List (FsPath × Outcome) × List FsPath × List (List String)),
      (∃ t, (process_folder exec fmt inputP outputP ctime sp fs acc).1 = acc.1 ++ t)
      ∧ acc.2.1 ⊆ (process_folder exec fmt inputP outputP ctime sp fs acc).2.1
      ∧ ∃ u, (process_folder exec fmt inputP outputP ctime sp fs acc).2.2 =
          acc.2.2 ++ u := by
  intro fs
  induction fs with
  | nil =>
    intro acc
    exact ⟨⟨[], by simp [process_folder]⟩, by simp [process_folder],
      ⟨[], by simp [process_folder]⟩⟩
  | cons f rest ih =>
    intro acc
    rw [process_folder_cons]
    obtain ⟨⟨t, ht⟩, hsub, ⟨u, hu⟩⟩ := ih
      (acc.1 ++ [(f, (process_file exec (fmt sp) inputP outputP ctime acc.2.1 f).1)],
       (process_file exec (fmt sp) inputP outputP ctime acc.2.1 f).2.1,
       acc.2.2 ++ (process_file exec (fmt sp) inputP outputP ctime acc.2.1 f).2.2)
    refine ⟨⟨_, ht.trans (List.append_assoc _ _ _)⟩, ?_,
      ⟨_, hu.trans (List.append_assoc _ _ _)⟩⟩
    intro x hx
    exact hsub (process_file_exist_subset exec (fmt sp) inputP outputP ctime
      acc.2.1 f hx)

theorem process_folder_fst (exec : List String → Nat) (fmt : Rat → String)
    (inputP outputP : FsPath) (ctime : FsPath → Date) (sp : Rat) :
    ∀ (fs : List FsPath)
      (acc : List (FsPath × Outcome) × List FsPath × List (List String)),
      ((process_folder exec fmt inputP outputP ctime sp fs acc).1).map Prod.fst =
        acc.1.map Prod.fst ++ fs := by
  intro fs
  induction fs with
  | nil => intro acc; simp [process_folder]
  | cons f rest ih =>
    intro acc
    rw [process_folder_cons, ih]
    simp

theorem process_folder_out (exec : List String → Nat) (fmt : Rat → String)
    (inputP outputP : FsPath) (ctime : FsPath → Date) (sp : Rat) :
    ∀ (fs : List FsPath)
      (acc : List (FsPath × Outcome) × List FsPath × List (List String))
      (f : FsPath), f ∈ fs →
      ∃ o, (f, o) ∈ (process_folder exec fmt inputP outputP ctime sp fs acc).1 ∧
        (o ≠ Outcome.failed →
          output_file_for inputP outputP ctime f ∈
            (process_folder exec fmt inputP outputP ctime sp fs acc).2.1) := by
  intro fs
  induction fs with
  | nil => intro acc f hf; exact absurd hf (by simp)
  | cons f0 rest ih =>
    intro acc f hf
    rw [process_folder_cons]
    rcases List.mem_cons.mp hf with hf0 | hfr
    · subst hf0
      obtain ⟨⟨t, ht⟩, hsub, _⟩ := process_folder_acc exec fmt inputP outputP ctime sp
        rest
        (acc.1 ++ [(f, (process_file exec (fmt sp) inputP outputP ctime acc.2.1 f).1)],
         (process_file exec (fmt sp) inputP outputP ctime acc.2.1 f).2.1,
         acc.2.2 ++ (process_file exec (fmt sp) inputP outputP ctime acc.2.1 f).2.2)
      refine ⟨(process_file exec (fmt sp) inputP outputP ctime acc.2.1 f).1, ?_, ?_⟩
      · rw [ht]
        simp
      · intro hnf
        exact hsub (process_file_not_failed_mem exec (fmt sp) inputP outputP ctime
          acc.2.1 f hnf)
    · exact ih _ f hfr

theorem process_folder_all_skip (exec : List String → Nat) (fmt : Rat → String)
    (inputP outputP : FsPath) (ctime : FsPath → Date) (sp : Rat) :
    ∀ (fs : List FsPath)
      (acc : List (FsPath × Outcome) × List FsPath × List (List String)),
      (∀ f ∈ fs, output_file_for inputP outputP ctime f ∈ acc.2.1) →
      process_folder exec fmt inputP outputP ctime sp fs acc =
        (acc.1 ++ fs.map (fun f => (f, Outcome.skipped)), acc.2.1, acc.2.2) := by
  intro fs
  induction fs with
  | nil => intro acc h; simp [process_folder]
  | cons f0 rest ih =>
    intro acc h
    rw [process_folder_cons]
    rw [process_file_skip exec (fmt sp) inputP outputP ctime acc.2.1 f0
      ((contains_iff_mem_path _ _).mpr (h f0 (by simp)))]
    rw [ih (acc.1 ++ [(f0, Outcome.skipped)], acc.2.1, acc.2.2 ++ [])
      (fun f hf => h f (by simp [hf]))]
    simp

theorem dict_append_map_unchanged (k v : FsPath)
    (rest : List (FsPath × List FsPath)) (hnotin : k ∉ rest.map Prod.fst) :
    rest.map (fun kv => if kv.1 == k then (kv.1, kv.2 ++ [v]) else kv) = rest := by
  rw [show rest.map (fun kv => if kv.1 == k then (kv.1, kv.2 ++ [v]) else kv) =
      rest.map (fun kv => kv) from ?_, List.map_id']
  apply List.map_congr_left
  intro kv hkv
  rw [if_neg]
  intro hbeq
  exact hnotin (List.mem_map.mpr ⟨kv, hkv, by simpa using hbeq⟩)

theorem dict_append_flatten_perm (k v : FsPath) :
    ∀ d : List (FsPath × List FsPath), (d.map Prod.fst).Nodup →
      List.Perm ((dict_append d k v).map (fun kv => kv.2)).flatten
        (v :: (d.map (fun kv => kv.2)).flatten) := by
  intro d
  induction d with
  | nil => intro _; simp [dict_append]
  | cons kv0 rest ih =>
    intro hnd
    by_cases h0 : (kv0.1 == k) = true
    · have hk : kv0.1 = k := by simpa using h0
      unfold dict_append
      rw [if_pos (by simp [List.any_cons, h0])]
      simp only [List.map_cons, h0, if_true, List.flatten_cons]
      have hnotin : k ∉ rest.map Prod.fst := by
        rw [List.map_cons, List.nodup_cons] at hnd
        rw [← hk]
        exact hnd.1
      rw [dict_append_map_unchanged k v rest hnotin]
      rw [List.append_assoc]
      exact List.perm_middle
    · have hnd1 : (rest.map Prod.fst).Nodup := by
        rw [List.map_cons, List.nodup_cons] at hnd
        exact hnd.2
      rw [dict_append_cons_ne kv0 rest k v (by simpa using h0)]
      simp only [List.map_cons, List.flatten_cons]
      exact (List.Perm.append_left kv0.2 (ih hnd1)).trans List.perm_middle

theorem files_by_folder_flatten_perm (speeds : List (FsPath × Rat))
    (inputP : FsPath) :
    ∀ (files : List FsPath) (d : List (FsPath × List FsPath)),
      (d.map Prod.fst).Nodup →
      List.Perm
        (((files.foldl (fun d f => dict_append d (closest_parent speeds inputP f) f)
            d).map (fun kv => kv.2)).flatten)
        ((d.map (fun kv => kv.2)).flatten ++ files) := by
  intro files
  induction files with
  | nil => intro d _; simp
  | cons f rest ih =>
    intro d hd
    simp only [List.foldl_cons]
    have h1 := ih (dict_append d (closest_parent speeds inputP f) f)
      (dict_append_keys_nodup d _ f hd)
    have h2 := dict_append_flatten_perm (closest_parent speeds inputP f) f d hd
    exact (h1.trans (h2.append_right rest)).trans List.perm_middle.symm

theorem groups_fold_acc (exec : List String → Nat) (fmt : Rat → String)
    (inputP outputP : FsPath) (ctime : FsPath → Date) (speeds : List (FsPath × Rat)) :
    ∀ (gs : List (FsPath × List FsPath))
      (acc : List (FsPath × Outcome) × List FsPath × List (List String)),
      (∃ t, (gs.foldl (fun a kv => process_folder exec fmt inputP outputP ctime
          (dictGetD speeds kv.1 2) kv.2 a) acc).1 = acc.1 ++ t)
      ∧ acc.2.1 ⊆ (gs.foldl (fun a kv => process_folder exec fmt inputP outputP ctime
          (dictGetD speeds kv.1 2) kv.2 a) acc).2.1
      ∧ ∃ u, (gs.foldl (fun a kv => process_folder exec fmt inputP outputP ctime
          (dictGetD speeds kv.1 2) kv.2 a) acc).2.2 = acc.2.2 ++ u := by
  intro gs
  induction gs with
  | nil => intro acc; exact ⟨⟨[], by simp⟩, by simp, ⟨[], by simp⟩⟩
  | cons kv rest ih =>
    intro acc
    simp only [List.foldl_cons]
    obtain ⟨⟨t1, ht1⟩, hsub1, ⟨u1, hu1⟩⟩ := process_folder_acc exec fmt inputP outputP
      ctime (dictGetD speeds kv.1 2) kv.2 acc
    obtain ⟨⟨t2, ht2⟩, hsub2, ⟨u2, hu2⟩⟩ := ih
      (process_folder exec fmt inputP outputP ctime (dictGetD speeds kv.1 2) kv.2 acc)
    refine ⟨⟨t1 ++ t2, ?_⟩, ?_, ⟨u1 ++ u2, ?_⟩⟩
    · rw [ht2, ht1, List.append_assoc]
    · intro x hx
      exact hsub2 (hsub1 hx)
    · rw [hu2, hu1, List.append_assoc]

theorem groups_fold_fst (exec : List String → Nat) (fmt : Rat → String)
    (inputP outputP : FsPath) (ctime : FsPath → Date) (speeds : List (FsPath × Rat)) :
    ∀ (gs : List (FsPath × List FsPath))
      (acc : List (FsPath × Outcome) × List FsPath × List (List String)),
      ((gs.foldl (fun a kv => process_folder exec fmt inputP outputP ctime
          (dictGetD speeds kv.1 2) kv.2 a) acc).1).map Prod.fst =
        acc.1.map Prod.fst ++ (gs.map (fun kv => kv.2)).flatten := by
  intro gs
  induction gs with
  | nil => intro acc; simp
  | cons kv rest ih =>
    intro acc
    simp only [List.foldl_cons]
    rw [ih, process_folder_fst]
    simp

theorem groups_fold_out (exec : List String → Nat) (fmt : Rat → String)
    (inputP outputP : FsPath) (ctime : FsPath → Date) (speeds : List (FsPath × Rat)) :
    ∀ (gs : List (FsPath × List FsPath))
      (acc : List (FsPath × Outcome) × List FsPath × List (List String))
      (kv : FsPath × List FsPath) (f : FsPath), kv ∈ gs → f ∈ kv.2 →
      ∃ o, (f, o) ∈ (gs.foldl (fun a kv => process_folder exec fmt inputP outputP ctime
          (dictGetD speeds kv.1 2) kv.2 a) acc).1 ∧
        (o ≠ Outcome.failed →
          output_file_for inputP outputP ctime f ∈
            (gs.foldl (fun a kv => process_folder exec fmt inputP outputP ctime
              (dictGetD speeds kv.1 2) kv.2 a) acc).2.1) := by
  intro gs
  induction gs with
  | nil => intro acc kv f hkv _; exact absurd hkv (by simp)
  | cons kv0 rest ih =>
    intro acc kv f hkv hf
    simp only [List.foldl_cons]
    rcases List.mem_cons.mp hkv with hkv0 | hkvr
    · subst hkv0
      obtain ⟨o, ho1, ho2⟩ := process_folder_out exec fmt inputP outputP ctime
        (dictGetD speeds kv.1 2) kv.2 acc f hf
      obtain ⟨⟨t, ht⟩, hsub, _⟩ := groups_fold_acc exec fmt inputP outputP ctime speeds
        rest
        (process_folder exec fmt inputP outputP ctime (dictGetD speeds kv.1 2) kv.2 acc)
      refine ⟨o, ?_, fun hnf => hsub (ho2 hnf)⟩
      rw [ht]
      exact List.mem_append_left _ ho1
    · exact ih _ kv f hkvr hf

theorem groups_fold_all_skip (exec : List String → Nat) (fmt : Rat → String)
    (inputP outputP : FsPath) (ctime : FsPath → Date) (speeds : List (FsPath × Rat)) :
    ∀ (gs : List (FsPath × List FsPath))
      (acc : List (FsPath × Outcome) × List FsPath × List (List String)),
      (∀ kv ∈ gs, ∀ f ∈ kv.2, output_file_for inputP outputP ctime f ∈ acc.2.1) →
      gs.foldl (fun a kv => process_folder exec fmt inputP outputP ctime
          (dictGetD speeds kv.1 2) kv.2 a) acc =
        (acc.1 ++ (gs.map (fun kv => kv.2.map (fun f => (f, Outcome.skipped)))).flatten,
         acc.2.1, acc.2.2) := by
  intro gs
  induction gs with
  | nil => intro acc h; simp
  | cons kv0 rest ih =>
    intro acc h
    simp only [List.foldl_cons]
    rw [process_folder_all_skip exec fmt inputP outputP ctime (dictGetD speeds kv0.1 2)
      kv0.2 acc (fun f hf => h kv0 (by simp) f hf)]
    rw [ih (acc.1 ++ kv0.2.map (fun f => (f, Outcome.skipped)), acc.2.1, acc.2.2)
      (fun kv hkv f hf => h kv (by simp [hkv]) f hf)]
    simp

/-- C4 (amended): a file whose computed destination already exists is
skipped with no invocation and the same filesystem state; consequently a
re-run over the state left by a first run performs zero new invocations
and skips every file, PROVIDED every file of the first run was skipped or
successfully transcoded.  (A file that failed all three tiers leaves no
output, so an identical re-run attempts it again; see the
counterexample.) -/
theorem claim_C4 (exec : List String → Nat) (fmt : Rat → String)
    (inputP outputP : FsPath) (ctime : FsPath → Date)
    (speeds : List (FsPath × Rat)) (files : List FsPath)
    (existing0 : List FsPath) :
    (∀ (existing : List FsPath) (speedStr : String) (file : FsPath),
      existing.contains (output_file_for inputP outputP ctime file) = true →
      process_file exec speedStr inputP outputP ctime existing file =
        (Outcome.skipped, existing, []))
    ∧ ((∀ fo ∈ (process_groups exec fmt inputP outputP ctime speeds files existing0).1,
          fo.2 ≠ Outcome.failed) →
      (process_groups exec fmt inputP outputP ctime speeds files
        (process_groups exec fmt inputP outputP ctime speeds files existing0).2.1).2.2
          = []
      ∧ ∀ fo ∈ (process_groups exec fmt inputP outputP ctime speeds files
          (process_groups exec fmt inputP outputP ctime speeds files existing0).2.1).1,
          fo.2 = Outcome.skipped) := by
  constructor
  · intro existing speedStr file h
    exact process_file_skip exec speedStr inputP outputP ctime existing file h
  · intro hnf
    have hmem : ∀ kv ∈ files_by_folder speeds inputP files, ∀ f ∈ kv.2,
        output_file_for inputP outputP ctime f ∈
          (process_groups exec fmt inputP outputP ctime speeds files existing0).2.1 := by
      intro kv hkv f hf
      obtain ⟨o, ho1, ho2⟩ := groups_fold_out exec fmt inputP outputP ctime speeds
        (files_by_folder speeds inputP files) ([], existing0, []) kv f hkv hf
      exact ho2 (hnf (f, o) ho1)
    have h2 := groups_fold_all_skip exec fmt inputP outputP ctime speeds
      (files_by_folder speeds inputP files)
      ([], (process_groups exec fmt inputP outputP ctime speeds files existing0).2.1, [])
      (by
        intro kv hkv f hf
        exact hmem kv hkv f hf)
    constructor
    · show ((files_by_folder speeds inputP files).foldl
        (fun a kv => process_folder exec fmt inputP outputP ctime
          (dictGetD speeds kv.1 2) kv.2 a)
        ([], (process_groups exec fmt inputP outputP ctime speeds files
          existing0).2.1, [])).2.2 = []
      rw [h2]
    · intro fo hfo
      rw [show (process_groups exec fmt inputP outputP ctime speeds files
          (process_groups exec fmt inputP outputP ctime speeds files existing0).2.1) =
        ((files_by_folder speeds inputP files).foldl
          (fun a kv => process_folder exec fmt inputP outputP ctime
            (dictGetD speeds kv.1 2) kv.2 a)
          ([], (process_groups exec fmt inputP outputP ctime speeds files
            existing0).2.1, [])) from rfl, h2] at hfo
      simp only [List.nil_append, List.mem_flatten, List.mem_map] at hfo
      obtain ⟨l, ⟨kv, _, hl⟩, hfol⟩ := hfo
      subst hl
      rw [List.mem_map] at hfol
      obtain ⟨f, _, hfo2⟩ := hfol
      rw [← hfo2]

/-- C4 witness for the amended claim: over a run where every transcode
succeeds, the re-run performs zero invocations. -/
theorem claim_C4_witness :
    (process_groups cexExecOk cexFmt ["in"] ["out"] cexCtime [(["in"], 2)]
      [["in", "a.mp3"]]
      (process_groups cexExecOk cexFmt ["in"] ["out"] cexCtime [(["in"], 2)]
        [["in", "a.mp3"]] []).2.1).2.2 = [] :=
  ((claim_C4 cexExecOk cexFmt ["in"] ["out"] cexCtime [(["in"], 2)]
    [["in", "a.mp3"]] []).2 (by decide)).1

/-- C4 counterexample to the claim as stated: with an input file on which
every ffmpeg invocation fails, the first run creates no output, so
re-running with identical input and output directories (the second call
receives exactly the filesystem state the first one left) performs three
new invocations, not zero. -/
theorem claim_C4_counterexample :
    ¬ ((process_audio_files cexParse cexFmt cexExecFail cexCtime [["in", "a.mp3"]] []
        cexAns ["in"] ["out"]
        ((process_audio_files cexParse cexFmt cexExecFail cexCtime [["in", "a.mp3"]] []
          cexAns ["in"] ["out"] []).toOption.getD ([], [], [])).2.1).toOption.getD
      ([], [], [])).2.2 = [] := by
  decide

/-- C5: no processing-phase outcome ever aborts the batch: the pipeline
returns a result exactly when every interactive speed answer parses (the
sole abort is the pre-processing parse failure), and whenever it returns
a result it contains one outcome per discovered audio file (as a
permutation, since files are processed grouped by folder), for every
possible exit-status behaviour of the external transcoder. -/
theorem claim_C5 (parse : String → Option Rat) (fmt : Rat → String)
    (exec : List String → Nat) (ctime : FsPath → Date) (allFiles : List FsPath)
    (subNames : List String) (ans : Nat → String) (inputP outputP : FsPath)
    (existing0 : List FsPath) :
    ((process_audio_files parse fmt exec ctime allFiles subNames ans inputP outputP
        existing0).toOption.isSome = true ↔
      ∀ j < 1 + subNames.length, (parse (ans j)).isSome = true)
    ∧ (∀ outs ex invs, process_audio_files parse fmt exec ctime allFiles subNames ans
        inputP outputP existing0 = .ok (outs, ex, invs) →
      List.Perm (outs.map Prod.fst) (audio_files allFiles inputP)) := by
  constructor
  · rw [except_isSome_iff, ← get_subfolder_speeds_ok_iff parse ans inputP subNames]
    unfold process_audio_files
    cases h : get_subfolder_speeds parse ans inputP subNames with
    | error e =>
      constructor
      · intro hcontra
        obtain ⟨m, hm⟩ := hcontra
        exact absurd hm (by simp)
      · intro hcontra
        obtain ⟨m, hm⟩ := hcontra
        exact absurd hm (by simp)
    | ok m =>
      constructor
      · intro _
        exact ⟨m, rfl⟩
      · intro _
        exact ⟨process_groups exec fmt inputP outputP ctime m
          (audio_files allFiles inputP) existing0, rfl⟩
  · intro outs ex invs hok
    unfold process_audio_files at hok
    cases h : get_subfolder_speeds parse ans inputP subNames with
    | error e =>
      rw [h] at hok
      exact absurd hok (by simp)
    | ok m =>
      rw [h] at hok
      have heq : process_groups exec fmt inputP outputP ctime m
          (audio_files allFiles inputP) existing0 = (outs, ex, invs) := by
        simpa using hok
      have hfst : outs.map Prod.fst =
          ((files_by_folder m inputP (audio_files allFiles inputP)).map
            (fun kv => kv.2)).flatten := by
        rw [show outs = (process_groups exec fmt inputP outputP ctime m
          (audio_files allFiles inputP) existing0).1 from by rw [heq]]
        rw [show process_groups exec fmt inputP outputP ctime m
            (audio_files allFiles inputP) existing0 =
          (files_by_folder m inputP (audio_files allFiles inputP)).foldl
            (fun a kv => process_folder exec fmt inputP outputP ctime
              (dictGetD m kv.1 2) kv.2 a) ([], existing0, []) from rfl]
        rw [groups_fold_fst]
        simp
      rw [hfst]
      have hperm := files_by_folder_flatten_perm m inputP
        (audio_files allFiles inputP) [] (by simp)
      unfold files_by_folder
      simpa using hperm

/-- C5 witness: a concrete pipeline run returns a result. -/
theorem claim_C5_witness :
    (process_audio_files cexParse cexFmt cexExecOk cexCtime [["in", "a.mp3"]] []
      cexAns ["in"] ["out"] []).toOption.isSome = true :=
  (claim_C5 cexParse cexFmt cexExecOk cexCtime [["in", "a.mp3"]] [] cexAns ["in"]
    ["out"] []).1.mpr (by decide)

theorem utf8_encode_char_ne_nil (c : Nat) (cbs : List Nat)
    (h : utf8_encode_char c = some cbs) : cbs ≠ [] := by
  unfold utf8_encode_char at h
  split_ifs at h <;> (rw [← Option.some.inj h]; simp)

theorem utf8_encode_char_two (b c1 : Nat) (hb : 194 ≤ b ∧ b ≤ 223)
    (hc1 : utf8_cont c1 = true) :
    utf8_encode_char (utf8_cp2 b c1) = some [b, c1] := by
  have hc1n : 128 ≤ c1 ∧ c1 ≤ 191 := by
    simpa [utf8_cont, Bool.and_eq_true, decide_eq_true_eq] using hc1
  unfold utf8_encode_char utf8_cp2
  rw [if_neg (by omega), if_pos (by omega)]
  simp only [Option.some.injEq, List.cons.injEq, and_true]
  exact ⟨by omega, by omega⟩

theorem utf8_encode_char_three (b c1 c2 : Nat) (hb : 224 ≤ b ∧ b ≤ 239)
    (hsec : utf8_sec3 b c1 = true) (hc2 : utf8_cont c2 = true) :
    utf8_encode_char (utf8_cp3 b c1 c2) = some [b, c1, c2] := by
  have hc2n : 128 ≤ c2 ∧ c2 ≤ 191 := by
    simpa [utf8_cont, Bool.and_eq_true, decide_eq_true_eq] using hc2
  unfold utf8_sec3 at hsec
  unfold utf8_encode_char utf8_cp3
  by_cases hb1 : b = 224
  · rw [if_pos hb1] at hsec
    have hc1n : 160 ≤ c1 ∧ c1 ≤ 191 := by
      simpa [Bool.and_eq_true, decide_eq_true_eq] using hsec
    subst hb1
    rw [if_neg (by omega), if_neg (by omega), if_pos (by omega),
      if_neg (by simp only [Bool.and_eq_true, decide_eq_true_eq]; omega)]
    simp only [Option.some.injEq, List.cons.injEq, and_true]
    exact ⟨by omega, by omega, by omega⟩
  · rw [if_neg hb1] at hsec
    by_cases hb2 : b = 237
    · rw [if_pos hb2] at hsec
      have hc1n : 128 ≤ c1 ∧ c1 ≤ 159 := by
        simpa [Bool.and_eq_true, decide_eq_true_eq] using hsec
      subst hb2
      rw [if_neg (by omega), if_neg (by omega), if_pos (by omega),
        if_neg (by simp only [Bool.and_eq_true, decide_eq_true_eq]; omega)]
      simp only [Option.some.injEq, List.cons.injEq, and_true]
      exact ⟨by omega, by omega, by omega⟩
    · rw [if_neg hb2] at hsec
      have hc1n : 128 ≤ c1 ∧ c1 ≤ 191 := by
        simpa [Bool.and_eq_true, decide_eq_true_eq] using hsec
      have hbge : 225 ≤ b := by omega
      rw [if_neg (by omega), if_neg (by omega), if_pos (by omega),
        if_neg (by simp only [Bool.and_eq_true, decide_eq_true_eq]; omega)]
      simp only [Option.some.injEq, List.cons.injEq, and_true]
      exact ⟨by omega, by omega, by omega⟩

theorem utf8_encode_char_four (b c1 c2 c3 : Nat) (hb : 240 ≤ b ∧ b ≤ 244)
    (hsec : utf8_sec4 b c1 = true) (hc2 : utf8_cont c2 = true)
    (hc3 : utf8_cont c3 = true) :
    utf8_encode_char (utf8_cp4 b c1 c2 c3) = some [b, c1, c2, c3] := by
  have hc2n : 128 ≤ c2 ∧ c2 ≤ 191 := by
    simpa [utf8_cont, Bool.and_eq_true, decide_eq_true_eq] using hc2
  have hc3n : 128 ≤ c3 ∧ c3 ≤ 191 := by
    simpa [utf8_cont, Bool.and_eq_true, decide_eq_true_eq] using hc3
  unfold utf8_sec4 at hsec
  unfold utf8_encode_char utf8_cp4
  by_cases hb1 : b = 240
  · rw [if_pos hb1] at hsec
    have hc1n : 144 ≤ c1 ∧ c1 ≤ 191 := by
      simpa [Bool.and_eq_true, decide_eq_true_eq] using hsec
    subst hb1
    rw [if_neg (by omega), if_neg (by omega), if_neg (by omega), if_pos (by omega)]
    simp only [Option.some.injEq, List.cons.injEq, and_true]
    exact ⟨by omega, by omega, by omega, by omega⟩
  · rw [if_neg hb1] at hsec
    by_cases hb2 : b = 244
    · rw [if_pos hb2] at hsec
      have hc1n : 128 ≤ c1 ∧ c1 ≤ 143 := by
        simpa [Bool.and_eq_true, decide_eq_true_eq] using hsec
      subst hb2
      rw [if_neg (by omega), if_neg (by omega), if_neg (by omega), if_pos (by omega)]
      simp only [Option.some.injEq, List.cons.injEq, and_true]
      exact ⟨by omega, by omega, by omega, by omega⟩
    · rw [if_neg hb2] at hsec
      have hc1n : 128 ≤ c1 ∧ c1 ≤ 191 := by
        simpa [Bool.and_eq_true, decide_eq_true_eq] using hsec
      have hbge : 241 ≤ b := by omega
      rw [if_neg (by omega), if_neg (by omega), if_neg (by omega), if_pos (by omega)]
      simp only [Option.some.injEq, List.cons.injEq, and_true]
      exact ⟨by omega, by omega, by omega, by omega⟩

theorem utf8_step_encode (c : Nat) (cbs : List Nat)
    (h : utf8_encode_char c = some cbs) (t : List Nat) :
    utf8_step (cbs ++ t) = some (c, t) := by
  unfold utf8_encode_char at h
  by_cases h1 : c < 128
  · rw [if_pos h1] at h
    rw [← Option.some.inj h]
    simp only [List.cons_append, List.nil_append]
    simp only [utf8_step]
    rw [if_pos h1]
  · rw [if_neg h1] at h
    by_cases h2 : c < 2048
    · rw [if_pos h2] at h
      rw [← Option.some.inj h]
      simp only [List.cons_append, List.nil_append]
      simp only [utf8_step]
      rw [if_neg (by omega)]
      rw [if_pos (by simp only [Bool.and_eq_true, decide_eq_true_eq]; omega)]
      rw [if_pos (by simp only [utf8_cont, Bool.and_eq_true, decide_eq_true_eq]; omega)]
      have hval : utf8_cp2 (192 + c / 64) (128 + c % 64) = c := by
        unfold utf8_cp2
        omega
      rw [hval]
    · rw [if_neg h2] at h
      by_cases h3 : c < 65536
      · rw [if_pos h3] at h
        by_cases h4 : (55296 ≤ c && c ≤ 57343) = true
        · rw [if_pos h4] at h
          exact absurd h (by simp)
        · rw [if_neg h4] at h
          have hsur : ¬(55296 ≤ c ∧ c ≤ 57343) := by
            simpa [Bool.and_eq_true, decide_eq_true_eq] using h4
          rw [← Option.some.inj h]
          simp only [List.cons_append, List.nil_append]
          simp only [utf8_step]
          rw [if_neg (by omega)]
          rw [if_neg (by simp only [Bool.and_eq_true, decide_eq_true_eq]; omega)]
          rw [if_pos (by simp only [Bool.and_eq_true, decide_eq_true_eq]; omega)]
          rw [if_pos ?hcond3]
          case hcond3 =>
            simp only [utf8_sec3, utf8_cont, Bool.and_eq_true, decide_eq_true_eq]
            refine ⟨?_, by omega⟩
            split_ifs with hb1 hb2 <;>
              (simp only [Bool.and_eq_true, decide_eq_true_eq]; omega)
          have hval : utf8_cp3 (224 + c / 4096) (128 + c / 64 % 64) (128 + c % 64) =
              c := by
            unfold utf8_cp3
            omega
          rw [hval]
      · rw [if_neg h3] at h
        by_cases h5 : c < 1114112
        · rw [if_pos h5] at h
          rw [← Option.some.inj h]
          simp only [List.cons_append, List.nil_append]
          simp only [utf8_step]
          rw [if_neg (by omega)]
          rw [if_neg (by simp only [Bool.and_eq_true, decide_eq_true_eq]; omega)]
          rw [if_neg (by simp only [Bool.and_eq_true, decide_eq_true_eq]; omega)]
          rw [if_pos (by simp only [Bool.and_eq_true, decide_eq_true_eq]; omega)]
          rw [if_pos ?hcond4]
          case hcond4 =>
            simp only [utf8_sec4, utf8_cont, Bool.and_eq_true, decide_eq_true_eq]
            refine ⟨⟨?_, by omega⟩, by omega⟩
            split_ifs with hb1 hb2 <;>
              (simp only [Bool.and_eq_true, decide_eq_true_eq]; omega)
          have hval : utf8_cp4 (240 + c / 262144) (128 + c / 4096 % 64)
              (128 + c / 64 % 64) (128 + c % 64) = c := by
            unfold utf8_cp4
            omega
          rw [hval]
        · rw [if_neg h5] at h
          exact absurd h (by simp)

set_option maxRecDepth 8192 in
theorem utf8_step_inv (bs : List Nat) (c : Nat) (rest2 : List Nat)
    (h : utf8_step bs = some (c, rest2)) :
    ∃ cbs, utf8_encode_char c = some cbs ∧ bs = cbs ++ rest2 := by
  match bs with
  | [] => exact absurd h (by simp [utf8_step])
  | b :: rest =>
    simp only [utf8_step] at h
    by_cases h1 : b < 128
    · rw [if_pos h1] at h
      have hpr := Option.some.inj h
      have hcb : b = c := congrArg Prod.fst hpr
      have hrr : rest = rest2 := congrArg Prod.snd hpr
      subst hcb
      subst hrr
      refine ⟨[b], ?_, rfl⟩
      unfold utf8_encode_char
      rw [if_pos h1]
    · rw [if_neg h1] at h
      by_cases h2 : (194 ≤ b && b ≤ 223) = true
      · rw [if_pos h2] at h
        have h2n : 194 ≤ b ∧ b ≤ 223 := by
          simpa [Bool.and_eq_true, decide_eq_true_eq] using h2
        match rest with
        | [] => exact absurd h (by simp)
        | c1 :: rest1 =>
          change (if utf8_cont c1 = true then some (utf8_cp2 b c1, rest1)
            else none) = some (c, rest2) at h
          by_cases hc1 : utf8_cont c1 = true
          · rw [if_pos hc1] at h
            have hpr := Option.some.inj h
            have hcb : utf8_cp2 b c1 = c := congrArg Prod.fst hpr
            have hrr : rest1 = rest2 := congrArg Prod.snd hpr
            subst hcb
            subst hrr
            exact ⟨[b, c1], utf8_encode_char_two b c1 h2n hc1, rfl⟩
          · rw [if_neg hc1] at h
            exact absurd h (by simp)
      · rw [if_neg h2] at h
        by_cases h3 : (224 ≤ b && b ≤ 239) = true
        · rw [if_pos h3] at h
          have h3n : 224 ≤ b ∧ b ≤ 239 := by
            simpa [Bool.and_eq_true, decide_eq_true_eq] using h3
          match rest with
          | [] => exact absurd h (by simp)
          | [c1] => exact absurd h (by simp)
          | c1 :: c2 :: rest22 =>
            change (if (utf8_sec3 b c1 && utf8_cont c2) = true then
              some (utf8_cp3 b c1 c2, rest22) else none) = some (c, rest2) at h
            by_cases hcc : (utf8_sec3 b c1 && utf8_cont c2) = true
            · rw [if_pos hcc] at h
              have hpr := Option.some.inj h
              have hcb : utf8_cp3 b c1 c2 = c := congrArg Prod.fst hpr
              have hrr : rest22 = rest2 := congrArg Prod.snd hpr
              subst hcb
              subst hrr
              have hcc2 := (Bool.and_eq_true _ _).mp hcc
              exact ⟨[b, c1, c2],
                utf8_encode_char_three b c1 c2 h3n hcc2.1 hcc2.2, rfl⟩
            · rw [if_neg hcc] at h
              exact absurd h (by simp)
        · rw [if_neg h3] at h
          by_cases h4 : (240 ≤ b && b ≤ 244) = true
          · rw [if_pos h4] at h
            have h4n : 240 ≤ b ∧ b ≤ 244 := by
              simpa [Bool.and_eq_true, decide_eq_true_eq] using h4
            match rest with
            | [] => exact absurd h (by simp)
            | [c1] => exact absurd h (by simp)
            | [c1, c2] => exact absurd h (by simp)
            | c1 :: c2 :: c3 :: rest33 =>
              change (if (utf8_sec4 b c1 && utf8_cont c2 && utf8_cont c3) = true then
                some (utf8_cp4 b c1 c2 c3, rest33) else none) = some (c, rest2) at h
              by_cases hcc : (utf8_sec4 b c1 && utf8_cont c2 && utf8_cont c3) = true
              · rw [if_pos hcc] at h
                have hpr := Option.some.inj h
                have hcb : utf8_cp4 b c1 c2 c3 = c := congrArg Prod.fst hpr
                have hrr : rest33 = rest2 := congrArg Prod.snd hpr
                subst hcb
                subst hrr
                have hcc2 := (Bool.and_eq_true _ _).mp hcc
                have hcc3 := (Bool.and_eq_true _ _).mp hcc2.1
                exact ⟨[b, c1, c2, c3],
                  utf8_encode_char_four b c1 c2 c3 h4n hcc3.1 hcc3.2 hcc2.2, rfl⟩
              · rw [if_neg hcc] at h
                exact absurd h (by simp)
          · rw [if_neg h4] at h
            exact absurd h (by simp)

theorem utf8_encode_length : ∀ (cs bs : List Nat), utf8_encode cs = some bs →
    cs.length ≤ bs.length := by
  intro cs
  induction cs with
  | nil =>
    intro bs h
    rw [utf8_encode] at h
    rw [← Option.some.inj h]
  | cons c rest ih =>
    intro bs h
    rw [utf8_encode] at h
    cases hc : utf8_encode_char c with
    | none => rw [hc] at h; exact absurd h (by simp)
    | some cbs =>
      cases hr : utf8_encode rest with
      | none => rw [hc, hr] at h; exact absurd h (by simp)
      | some rbs =>
        rw [hc, hr] at h
        have hbs : cbs ++ rbs = bs := Option.some.inj h
        have hcb : 0 < cbs.length :=
          List.length_pos.mpr (utf8_encode_char_ne_nil c cbs hc)
        have hrec := ih rbs hr
        rw [← hbs]
        simp only [List.length_append, List.length_cons]
        omega

theorem utf8_decode_aux_encode : ∀ (cs : List Nat) (fuel : Nat) (bs : List Nat),
    cs.length ≤ fuel → utf8_encode cs = some bs →
    utf8_decode_aux fuel bs = some cs := by
  intro cs
  induction cs with
  | nil =>
    intro fuel bs _ h
    rw [utf8_encode] at h
    rw [← Option.some.inj h]
    cases fuel <;> rfl
  | cons c rest ih =>
    intro fuel bs hlen h
    rw [utf8_encode] at h
    cases hc : utf8_encode_char c with
    | none => rw [hc] at h; exact absurd h (by simp)
    | some cbs =>
      cases hr : utf8_encode rest with
      | none => rw [hc, hr] at h; exact absurd h (by simp)
      | some rbs =>
        rw [hc, hr] at h
        have hbs : cbs ++ rbs = bs := Option.some.inj h
        cases fuel with
        | zero => simp at hlen
        | succ f =>
          obtain ⟨b, cbs1, hcbs⟩ : ∃ b cbs1, cbs = b :: cbs1 := by
            cases hcb : cbs with
            | nil => exact absurd hcb (utf8_encode_char_ne_nil c cbs hc)
            | cons b cbs1 => exact ⟨b, cbs1, rfl⟩
          rw [← hbs, hcbs]
          rw [show (b :: cbs1) ++ rbs = b :: (cbs1 ++ rbs) from rfl]
          rw [utf8_decode_aux]
          rw [show utf8_step (b :: (cbs1 ++ rbs)) = some (c, rbs) from by
            rw [show b :: (cbs1 ++ rbs) = (b :: cbs1) ++ rbs from rfl, ← hcbs]
            exact utf8_step_encode c cbs hc rbs]
          show (utf8_decode_aux f rbs).map (fun cs => c :: cs) = some (c :: rest)
          rw [ih f rbs (by simp at hlen; omega) hr]
          rfl

theorem utf8_decode_encode_aux : ∀ (fuel : Nat) (bs cs : List Nat),
    utf8_decode_aux fuel bs = some cs → utf8_encode cs = some bs := by
  intro fuel
  induction fuel with
  | zero =>
    intro bs cs h
    cases bs with
    | nil =>
      rw [utf8_decode_aux] at h
      rw [← Option.some.inj h]
      rfl
    | cons b rest =>
      rw [utf8_decode_aux] at h
      exact absurd h (by simp)
  | succ f ih =>
    intro bs cs h
    cases bs with
    | nil =>
      rw [utf8_decode_aux] at h
      rw [← Option.some.inj h]
      rfl
    | cons b rest =>
      rw [utf8_decode_aux] at h
      cases hs : utf8_step (b :: rest) with
      | none => rw [hs] at h; exact absurd h (by simp)
      | some pr =>
        obtain ⟨c, rest2⟩ := pr
        rw [hs] at h
        change (utf8_decode_aux f rest2).map (fun cs => c :: cs) = some cs at h
        cases hd : utf8_decode_aux f rest2 with
        | none =>
          rw [hd] at h
          exact absurd h (by simp)
        | some cs0 =>
          rw [hd] at h
          have hcs : cs = c :: cs0 := (Option.some.inj h).symm
          subst hcs
          obtain ⟨cbs, hcbs, hbs2⟩ := utf8_step_inv (b :: rest) c rest2 hs
          rw [utf8_encode, hcbs, ih rest2 cs0 hd]
          show some (cbs ++ rest2) = some (b :: rest)
          rw [← hbs2]

theorem utf8_encode_decode (cs bs : List Nat) (h : utf8_encode cs = some bs) :
    utf8_decode bs = some cs :=
  utf8_decode_aux_encode cs bs.length bs (utf8_encode_length cs bs h) h

theorem utf8_decode_encode (bs cs : List Nat) (h : utf8_decode bs = some cs) :
    utf8_encode cs = some bs :=
  utf8_decode_encode_aux bs.length bs cs h

/-- C7: `safe_decode` returns the UTF-8 decoding whenever the captured
bytes are valid UTF-8 (i.e. are the encoding of some code-point sequence),
otherwise falls back to the total latin-1 decoding (each byte becomes the
code point of the same value); it always produces text and never fails
(the raw `str(...)` branch is a further fallback that the total latin-1
decoding makes unreachable). -/
theorem safe_decode_some (bs : List Nat) :
    safe_decode (some bs) =
      match utf8_decode bs with
      | some cs => Decoded.text cs
      | none => Decoded.text bs := rfl

theorem claim_C7 (bs : List Nat) :
    (∀ cps, utf8_encode cps = some bs → safe_decode (some bs) = Decoded.text cps)
    ∧ ((∀ cps, utf8_encode cps ≠ some bs) → safe_decode (some bs) = Decoded.text bs)
    ∧ safe_decode none = Decoded.text []
    ∧ ∃ out, safe_decode (some bs) = Decoded.text out := by
  refine ⟨?_, ?_, rfl, ?_⟩
  · intro cps henc
    rw [safe_decode_some, utf8_encode_decode cps bs henc]
  · intro hnone
    rw [safe_decode_some]
    cases hd : utf8_decode bs with
    | some cs => exact absurd (utf8_decode_encode bs cs hd) (hnone cs)
    | none => rfl
  · rw [safe_decode_some]
    cases hd : utf8_decode bs with
    | some cs => exact ⟨cs, rfl⟩
    | none => exact ⟨bs, rfl⟩

/-- C7 witness: the valid UTF-8 bytes `48 C3 A9` decode to the code points
`[72, 233]`, and the invalid bytes `FF 41` fall back to latin-1. -/
theorem claim_C7_witness :
    safe_decode (some [72, 195, 169]) = Decoded.text [72, 233]
    ∧ safe_decode (some [255, 65]) = Decoded.text [255, 65] :=
  ⟨(claim_C7 [72, 195, 169]).1 [72, 233] (by decide),
   (claim_C7 [255, 65]).2.1 (fun cps h => by
     have hdec := utf8_encode_decode cps [255, 65] h
     rw [show utf8_decode [255, 65] = none from by decide] at hdec
     exact absurd hdec (by simp))⟩

end SpeedUpAudio
